import Mathlib

/-!
# torch_png: PNG files to and from tensors

A shallow embedding of `src/torch_png/src/Png.cpp` and `include/torch_png/Png.hpp`.

* A tensor is its element type, its sizes and its elements in row-major order
  (`data i` is the element at flat index `i`); memory is a function from byte
  offsets to bytes, so that images of any size can be written down.
* Sizes and loop counters that are `std::int64_t` in the source are natural numbers:
  a tensor's element count fits `std::int64_t`, so the 64-bit products of `encode`
  do not wrap.  The values that are `png_uint_32` in the source (`decode`, `getDims`,
  the arguments of `png_set_IHDR`) are reduced modulo `2^32` where the source
  converts or multiplies them.
* libpng is a store: what the writer is handed (header fields, rows in order, the end
  marker) is what the reader hands back.  A read that finds nothing to hand back is a
  libpng error, and so is a header `png_set_IHDR` does not accept (a width or height of 0,
  above `2^31 - 1` or above libpng's default user limit of 1000000); the source turns a
  libpng error into `abort()` through `setjmp`.
* The file system is a map from C strings (what `filepath.c_str()` hands to `fopen`) to file
  contents.  Which names can be opened for writing, and whether the writes libpng makes to
  an open file go through, is decided by the environment, a parameter (`Env`).
-/

namespace TorchPng

/-! ## Outcomes -/

/-- The places of `Png.cpp` where the process calls `abort()`. -/
inductive AbortSite where
  /-- At `if (!fp.get()) abort();`: the file could not be opened. -/
  | fopen
  /-- At `if (!fread(header, 1, 8, fp.get())) abort();`. -/
  | fread
  /-- At `if (png_sig_cmp((png_const_bytep)header, 0, 8)) abort();`. -/
  | sigCmp
  /-- In the first `setjmp` handler: libpng raised an error in `png_read_info`. -/
  | readInfo
  /-- At `if (bit_depth != 8) { png_destroy_read_struct(...); abort(); }`. -/
  | bitDepth
  /-- In the `setjmp` handler installed before the row loop: libpng raised an error in
  `png_read_row` or `png_read_end`. -/
  | readRows
  /-- In a `setjmp` handler of `encode`: libpng raised an error while the header, the rows or
  the end marker were written. -/
  | pngWrite
  deriving DecidableEq

/-- How a call ends: it returns, it throws `std::invalid_argument`, it calls `abort()`,
or its loop never ends. -/
inductive Outcome (α : Type) where
  | ret (a : α)
  | invalidArgument (what : String)
  | abort (site : AbortSite)
  | hang

/-- The abort sites that come before `png_create_read_struct`. -/
def AbortSite.beforeReadStruct : AbortSite → Bool
  | .fopen => true
  | .fread => true
  | .sigCmp => true
  | _ => false

/-- The abort sites that come before `torch::empty`. -/
def AbortSite.beforeAllocation : AbortSite → Bool
  | .readRows => false
  | .pngWrite => false
  | _ => true

/-! ## Tensors -/

/-- Element types of a tensor (those of the test file's `std_to_torch_type`). -/
inductive ScalarType where
  | kUInt8 | kInt8 | kInt16 | kInt32 | kInt64 | kFloat32 | kFloat64
  deriving DecidableEq

/-- A tensor: element type, sizes, and elements in row-major (contiguous) order. -/
structure Tensor where
  dtype : ScalarType
  sizes : List Nat
  data : Nat → Nat

/-- Number of dimensions, `tensor.dim()`. -/
def Tensor.dim (t : Tensor) : Nat := t.sizes.length

/-- Size along one axis, `tensor.size(i)`. -/
def Tensor.size (t : Tensor) (i : Nat) : Nat := t.sizes.getD i 0

/-- The call `t.permute({p0, p1, p2}).contiguous()` on a 3-D tensor: axis `a` of the result
is axis `p a` of `t`, and the elements are laid out afresh in row-major order. -/
def Tensor.permute (t : Tensor) (p0 p1 p2 : Nat) : Tensor :=
  { dtype := t.dtype
    sizes := [t.size p0, t.size p1, t.size p2]
    data := fun i =>
      let i2 := i % t.size p2
      let i1 := (i / t.size p2) % t.size p1
      let i0 := i / t.size p2 / t.size p1
      let j : Nat → Nat := fun d => if d = p0 then i0 else if d = p1 then i1 else i2
      t.data ((j 0 * t.size 1 + j 1) * t.size 2 + j 2) }

/-- The call `tensor.index({b, idx::Ellipsis})`: the `b`-th slice along the first axis. -/
def Tensor.index (t : Tensor) (b : Nat) : Tensor :=
  { dtype := t.dtype
    sizes := t.sizes.tail
    data := fun i => t.data (b * t.sizes.tail.prod + i) }

/-- The call `torch::empty(sizes, options)` with `dtype(torch::kUInt8)`: the storage is
whatever the allocator hands out, `raw`. -/
def empty (sizes : List Nat) (raw : Nat → Nat) : Tensor :=
  { dtype := .kUInt8, sizes := sizes, data := raw }

/-! ## Paths and `std::to_string` -/

/-- A path is its native string. -/
abbrev Path := List Char

/-- One decimal digit. -/
def digitChar : Nat → Char
  | 0 => '0' | 1 => '1' | 2 => '2' | 3 => '3' | 4 => '4'
  | 5 => '5' | 6 => '6' | 7 => '7' | 8 => '8' | _ => '9'

/-- Digits of `n`, most significant first, put in front of `acc`. -/
def toDigits : Nat → Nat → List Char → List Char
  | 0, _, acc => acc
  | fuel + 1, n, acc =>
    if n < 10 then digitChar n :: acc
    else toDigits fuel (n / 10) (digitChar (n % 10) :: acc)

/-- The call `std::to_string(n)` for a non-negative integer: decimal, most significant digit
first, no leading zero, `"0"` for zero. -/
def to_string (n : Nat) : List Char := toDigits (n + 1) n []

/-- The number a string of decimal digits stands for, after the digits read so far. -/
def digitsValue (a : Nat) (cs : List Char) : Nat :=
  cs.foldl (fun a c => 10 * a + (c.toNat - 48)) a

/-- The part of `f` from its rightmost `'.'` on, if it has one. -/
def fromLastDot : List Char → Option (List Char)
  | [] => none
  | c :: cs =>
    match fromLastDot cs with
    | some e => some e
    | none => if c = '.' then some (c :: cs) else none

/-- The member `path::filename()`: what follows the last `'/'`. -/
def filename : List Char → List Char
  | [] => []
  | c :: cs => if '/' ∈ cs then filename cs else if c = '/' then cs else c :: cs

/-- The member `path::extension()`: the part of the filename from its rightmost `'.'` on; empty
for the filenames `.` and `..`, for a filename without `'.'`, and when the only `'.'` is
the first character. -/
def extension (p : Path) : Path :=
  let f := filename p
  if f = ['.'] ∨ f = ['.', '.'] then []
  else
    match fromLastDot f with
    | none => []
    | some e => if e.length = f.length then [] else e

/-- The member `path::replace_extension(replacement)`: the extension is removed, a `'.'` is
appended when the replacement is not empty and does not start with one, then the
replacement is appended. -/
def replace_extension (p : Path) (replacement : Path) : Path :=
  let base := p.take (p.length - (extension p).length)
  let base := if replacement ≠ [] ∧ replacement.head? ≠ some '.' then base ++ ['.'] else base
  base ++ replacement

/-- The member `path::c_str()` as `fopen` reads it: the characters before the first NUL. -/
def c_str (p : Path) : Path := p.takeWhile fun ch => ch ≠ Char.ofNat 0

/-! ## libpng as a store -/

/-- What a PNG file holds after its signature, as libpng reads it: the header fields,
the rows in file order, and whether the stream ends as `png_read_end` expects. -/
structure PngStream where
  width : Nat
  height : Nat
  bitDepth : Nat
  colorType : Nat
  rows : List (List Nat)
  iend : Bool

/-- A file: its leading bytes (what `fread(header, 1, 8, fp)` can see) and what libpng
reads after the eight signature bytes, `none` when `png_read_info` raises an error. -/
structure File where
  head : List Nat
  stream : Option PngStream

/-- The file system. -/
abbrev FileSystem := Path → Option File

/-- A file is created or replaced. -/
def FileSystem.write (fsys : FileSystem) (p : Path) (f : File) : FileSystem :=
  fun q => if q = p then some f else fsys q

/-- The call `make_unique_fp(filename, "rb")`: the file, `none` (a null pointer) when there is
no file of that name. -/
def make_unique_fp_rb (fsys : FileSystem) (filename : Path) : Option File := fsys filename

/-- The call `make_unique_fp(filename, "wb")`: when the name can be opened for writing
(`canOpen`: its directory is there, the permissions allow it) the file is created, or emptied
when it exists; `none` (a null pointer) otherwise. -/
def make_unique_fp_wb (canOpen : Path → Bool) (fsys : FileSystem) (filename : Path) :
    Option FileSystem :=
  if canOpen filename then some (fsys.write filename ⟨[], none⟩) else none

/-- What the environment decides when a file is written. -/
structure Env where
  /-- Whether `fopen(name, "wb")` succeeds: the directory is there, the permissions allow it. -/
  canOpen : Path → Bool
  /-- The file as it is left when a write libpng makes to the open file `name` fails (the
  device is full, the descriptor goes bad), a libpng error; `none` when every write goes
  through. -/
  writeError : Path → Option File

/-- The eight bytes every PNG file starts with. -/
def pngSignature : List Nat := [137, 80, 78, 71, 13, 10, 26, 10]

/-- The call `fread(buffer, 1, count, fp)` at the start of a file: as many bytes as there are,
at most `count`, replace the start of the buffer; their number is returned. -/
def fread (buffer : Nat → Nat) (count : Nat) (bytes : List Nat) : Nat × (Nat → Nat) :=
  let got := bytes.take count
  (got.length, fun i => if i < got.length then got.getD i 0 else buffer i)

/-- The call `png_sig_cmp(sig, start, num_to_check)` of libpng: at most eight bytes are checked,
a call that checks none is answered with a non-zero value, and otherwise the answer is that
of `memcmp` against the signature; `false` stands for zero (the bytes match). -/
def png_sig_cmp (sig : Nat → Nat) (start num_to_check : Nat) : Bool :=
  if num_to_check < 1 then true
  else if start > 7 then true
  else
    let num_to_check := if num_to_check > 8 then 8 else num_to_check
    let num_to_check := if start + num_to_check > 8 then 8 - start else num_to_check
    !((List.range num_to_check).all fun i => sig (start + i) == pngSignature.getD (start + i) 0)

/-- The call `png_read_info` after `fread` consumed `consumed` bytes: a file that ended before
its eighth byte has nothing left to read. -/
def png_read_info (consumed : Nat) (f : File) : Option PngStream :=
  if consumed < 8 then none else f.stream

/-- The getter `png_get_image_height`, a `png_uint_32`. -/
def png_get_image_height (s : PngStream) : Nat := s.height % 2 ^ 32

/-- The getter `png_get_image_width`, a `png_uint_32`. -/
def png_get_image_width (s : PngStream) : Nat := s.width % 2 ^ 32

/-- The getter `png_get_bit_depth`, a `png_byte`. -/
def png_get_bit_depth (s : PngStream) : Nat := s.bitDepth % 2 ^ 8

/-- The getter `png_get_color_type`, a `png_byte`. -/
def png_get_color_type (s : PngStream) : Nat := s.colorType % 2 ^ 8

/-- The getter `png_get_channels`: one sample for gray and palette, three for colour, one more
with alpha. -/
def png_get_channels (s : PngStream) : Nat :=
  match png_get_color_type s with
  | 2 => 3
  | 4 => 2
  | 6 => 4
  | _ => 1

/-- The macro `PNG_ROWBYTES(pixel_bits, width)` of libpng. -/
def PNG_ROWBYTES (pixel_bits width : Nat) : Nat :=
  if pixel_bits ≥ 8 then width * (pixel_bits / 8) else (width * pixel_bits + 7) / 8

/-- Bytes in one row of the image a header declares. -/
def rowbytes (s : PngStream) : Nat :=
  PNG_ROWBYTES (png_get_channels s * png_get_bit_depth s) (png_get_image_width s)

/-- The constant `PNG_UINT_31_MAX` of libpng. -/
def PNG_UINT_31_MAX : Nat := 2 ^ 31 - 1

/-- The constant `PNG_USER_WIDTH_MAX` of libpng (its default in `pnglibconf.h`). -/
def PNG_USER_WIDTH_MAX : Nat := 1000000

/-- The constant `PNG_USER_HEIGHT_MAX` of libpng (its default in `pnglibconf.h`). -/
def PNG_USER_HEIGHT_MAX : Nat := 1000000

/-- The check `png_check_IHDR` of libpng, `true` when it raises an error: a width or height
that is 0, above `PNG_UINT_31_MAX` or above the user limit, a bit depth other than
1, 2, 4, 8, 16, a colour type other than 0, 2, 3, 4, 6, or a bit depth the colour type does
not allow. -/
def png_check_IHDR (width height bit_depth color_type : Nat) : Bool :=
  decide (width = 0 ∨ width > PNG_UINT_31_MAX ∨ width > PNG_USER_WIDTH_MAX ∨
    height = 0 ∨ height > PNG_UINT_31_MAX ∨ height > PNG_USER_HEIGHT_MAX ∨
    bit_depth ∉ [1, 2, 4, 8, 16] ∨ color_type ∉ [0, 2, 3, 4, 6] ∨
    (color_type = 3 ∧ bit_depth > 8) ∨
    ((color_type = 2 ∨ color_type = 4 ∨ color_type = 6) ∧ bit_depth < 8))

/-- The calls `png_set_IHDR` and `png_write_info`; width and height arrive as `png_uint_32`;
`none` when libpng raises an error. -/
def png_set_IHDR (width height bit_depth color_type : Nat) : Option PngStream :=
  let width := width % 2 ^ 32
  let height := height % 2 ^ 32
  if png_check_IHDR width height bit_depth color_type then none
  else some { width := width, height := height
              bitDepth := bit_depth, colorType := color_type, rows := [], iend := false }

/-- The call `png_write_row(png_ptr, mem + offset)`: the row's bytes are taken from memory and
appended to the stream. -/
def png_write_row (s : PngStream) (mem : Nat → Nat) (offset : Nat) : PngStream :=
  { s with rows := s.rows ++ [(List.range (rowbytes s)).map fun j => mem (offset + j)] }

/-- The call `png_write_end(png_ptr, NULL)`. -/
def png_write_end (s : PngStream) : PngStream := { s with iend := true }

/-- The call `png_read_row(png_ptr, mem + offset, NULL)`: the next row of the stream lands in
memory at `offset`; `none` (a libpng error) when the stream has no row left. -/
def png_read_row (pending : List (List Nat)) (mem : Nat → Nat) (offset : Nat) :
    Option (List (List Nat) × (Nat → Nat)) :=
  match pending with
  | [] => none
  | row :: rest =>
    some (rest, fun i => if offset ≤ i ∧ i < offset + row.length then row.getD (i - offset) 0
                         else mem i)

/-! ## `Png.hpp` and `Png.cpp` -/

/-- The table `channel_idx_to_color` of `Png.hpp`: `PNG_COLOR_TYPE_GRAY`,
`PNG_COLOR_TYPE_GRAY_ALPHA`, `PNG_COLOR_TYPE_RGB`, `PNG_COLOR_TYPE_RGB_ALPHA`. -/
def channel_idx_to_color : List Nat := [0, 4, 2, 6]

/-- The function `is_valid_channels`. -/
def is_valid_channels (channels : Nat) : Bool :=
  if channels = 4 ∨ channels = 3 ∨ channels = 2 ∨ channels = 1 then true else false

/-- The function `check_transform_cpy`: the three checks, then the copy permuted to
(row, column, channel); `detach`, `clone` and `to(torch::kCPU)` keep sizes and elements. -/
def check_transform_cpy (tensor : Tensor) : Outcome Tensor :=
  if tensor.dim ≠ 3 then
    .invalidArgument ("Unexpected torch::Tensor dimensions.\nGot(" ++
      String.mk (to_string tensor.dim) ++ "). Expects 3.")
  else if tensor.dtype ≠ .kUInt8 then
    .invalidArgument "Unexpected torch::Tensor type. Expects: torch::kUInt8"
  else
    let channels := tensor.size 0
    if !is_valid_channels channels then
      .invalidArgument ("Unexpected torch::Tensor channels.\nGot(" ++
        String.mk (to_string channels) ++ "). Expects 1, 2, 3, 4.")
    else
      .ret (tensor.permute 1 2 0)

/-- The conversion of a `png_uint_32` to `std::int32_t`. -/
def toInt32 (n : Nat) : Int :=
  if n % 2 ^ 32 < 2 ^ 31 then (n % 2 ^ 32 : Nat) else (n % 2 ^ 32 : Nat) - 2 ^ 32

/-- The function `getDims`; `header` is what the stack holds where `char header[8]` is placed.
The libpng structures are taken to be created. -/
def getDims (header : Nat → Nat) (fsys : FileSystem) (filepath : Path) :
    Outcome (Int × Int × Nat × Nat × Nat) :=
  match make_unique_fp_rb fsys (c_str filepath) with
  | none => .abort .fopen
  | some fp =>
    let (count, header) := fread header 8 fp.head
    if count = 0 then .abort .fread
    else if png_sig_cmp header 0 8 then .abort .sigCmp
    else
      match png_read_info count fp with
      | none => .abort .readInfo
      | some png =>
        let height := png_get_image_height png
        let width := png_get_image_width png
        let channels := png_get_channels png
        let bit_depth := png_get_bit_depth png
        let color_type := png_get_color_type png
        .ret (toInt32 height, toInt32 width, channels, bit_depth, color_type)

/-- How the row loop of `decode` ends. -/
inductive RowLoop where
  /-- The loop condition failed; the rows left in the stream, the memory, and the offsets of
  the `png_read_row` calls in the order they were made. -/
  | done (pending : List (List Nat)) (mem : Nat → Nat) (reads : List Nat)
  /-- A `png_read_row` call raised a libpng error. -/
  | error
  /-- The loop is still running after `fuel` tests of its condition. -/
  | running

/-- The loop
`for (std::int64_t offset = 0; offset < height * width * channels; offset += width * channels)
    png_read_row(png_ptr, data + offset, NULL);`
of `decode`, from a given `offset` on; `bound` and `stride` are the two products. -/
def decodeRows (bound stride : Nat) :
    Nat → Nat → List (List Nat) → (Nat → Nat) → List Nat → RowLoop
  | 0, _, _, _, _ => .running
  | fuel + 1, offset, pending, mem, reads =>
    if offset < bound then
      match png_read_row pending mem offset with
      | none => .error
      | some (pending, mem) => decodeRows bound stride fuel (offset + stride) pending mem
          (reads ++ [offset])
    else .done pending mem reads

/-- The row loop of `decode` from its start, with its two products taken as the source takes
them: `height` and `width` are `png_uint_32` and `channels` is a `png_byte`, so both products
are `png_uint_32`. -/
def decodeLoop (height width channels : Nat) (pending : List (List Nat)) (mem : Nat → Nat) :
    RowLoop :=
  let bound := height * width % 2 ^ 32 * channels % 2 ^ 32
  let stride := width * channels % 2 ^ 32
  decodeRows bound stride (bound + 1) 0 pending mem []

/-- The function `decode`; `header` is what the stack holds where `char header[8]` is placed,
`raw` what the allocator hands out for `torch::empty`.  The libpng structures are taken to be
created (`png_create_read_struct` and `png_create_info_struct` do not return null). -/
def decode (header raw : Nat → Nat) (fsys : FileSystem) (filepath : Path) : Outcome Tensor :=
  match make_unique_fp_rb fsys (c_str filepath) with
  | none => .abort .fopen
  | some fp =>
    let (count, header) := fread header 8 fp.head
    if count = 0 then .abort .fread
    else if png_sig_cmp header 0 8 then .abort .sigCmp
    else
      match png_read_info count fp with
      | none => .abort .readInfo
      | some png =>
        let height := png_get_image_height png
        let width := png_get_image_width png
        let channels := png_get_channels png
        let bit_depth := png_get_bit_depth png
        if bit_depth ≠ 8 then .abort .bitDepth
        else
          let torch_tensor := empty [height, width, channels] raw
          match decodeLoop height width channels png.rows torch_tensor.data with
          | .running => .hang
          | .error => .abort .readRows
          | .done _ mem _ =>
            if !png.iend then .abort .readRows
            else .ret ({ torch_tensor with data := mem }.permute 2 0 1)

/-- The loop
`for (std::int64_t offset = 0; offset < height * width * channels; offset += width * channels)
    png_write_row(png_ptr, data + offset);`
of `encode`, from a given `offset` on; `none` when it is still running after `fuel` tests of
its condition. -/
def encodeRows (bound stride : Nat) (mem : Nat → Nat) : Nat → Nat → PngStream → Option PngStream
  | 0, _, _ => none
  | fuel + 1, offset, png =>
    if offset < bound then encodeRows bound stride mem fuel (offset + stride)
      (png_write_row png mem offset)
    else some png

/-- The function `encode` in an environment `env`.  The libpng structures are taken to be
created, libpng writes a stream that starts with the PNG signature, and an error libpng raises
(a header it does not accept, a write that fails) ends in `abort()` with the file as it is
then. -/
def encode (env : Env) (fsys : FileSystem) (filepath : Path) (tensor : Tensor) :
    FileSystem × Outcome Unit :=
  match check_transform_cpy tensor with
  | .invalidArgument what => (fsys, .invalidArgument what)
  | .abort site => (fsys, .abort site)
  | .hang => (fsys, .hang)
  | .ret tensor_cpy =>
    match make_unique_fp_wb env.canOpen fsys (c_str filepath) with
    | none => (fsys, .abort .fopen)
    | some fsys =>
      let height := tensor_cpy.size 0
      let width := tensor_cpy.size 1
      let channels := tensor_cpy.size 2
      match png_set_IHDR width height 8 (channel_idx_to_color.getD (channels - 1) 0) with
      | none => (fsys, .abort .pngWrite)
      | some png =>
        match env.writeError (c_str filepath) with
        | some remains => (fsys.write (c_str filepath) remains, .abort .pngWrite)
        | none =>
          match encodeRows (height * width * channels) (width * channels) tensor_cpy.data
              (height * width * channels + 1) 0 png with
          | none => (fsys, .hang)
          | some png =>
            (fsys.write (c_str filepath) ⟨pngSignature, some (png_write_end png)⟩, .ret ())

/-- The loop of `encode_batch`, sequentially, with `remaining` indices to go from `b` on;
`filepath` is the loop's mutable path variable. -/
def encodeBatchLoop (env : Env) (tensor : Tensor) (delimiter ext fp_no_ext : Path) :
    Nat → Nat → Path → FileSystem → FileSystem × Outcome Unit
  | 0, _, _, fsys => (fsys, .ret ())
  | remaining + 1, b, filepath, fsys =>
    let filepath := filepath ++ (delimiter ++ to_string b)
    let filepath := filepath ++ ext
    match encode env fsys filepath (tensor.index b) with
    | (fsys, .ret _) =>
      encodeBatchLoop env tensor delimiter ext fp_no_ext remaining (b + 1) fp_no_ext fsys
    | (fsys, .invalidArgument what) => (fsys, .invalidArgument what)
    | (fsys, .abort site) => (fsys, .abort site)
    | (fsys, .hang) => (fsys, .hang)

/-- The function `encode_batch`, its loop run sequentially. -/
def encode_batch (env : Env) (fsys : FileSystem) (filepath : Path) (tensor : Tensor)
    (delimiter : Path) : FileSystem × Outcome Unit :=
  if tensor.dim ≠ 4 then
    (fsys, .invalidArgument ("Unexpected torch::Tensor dim.\nGot(" ++
      String.mk (to_string tensor.dim) ++ "). Expects 4."))
  else
    let batch := tensor.size 0
    let ext := extension filepath
    let filepath := replace_extension filepath []
    let fp_no_ext := filepath
    encodeBatchLoop env tensor delimiter ext fp_no_ext batch 0 filepath fsys

/-! ## Vocabulary of the statements -/

/-- The rows `y`, `y + 1`, ..., `y + k - 1` of a memory laid out in rows of `stride` bytes, each
cut to `len` bytes. -/
def rowsOf (mem : Nat → Nat) (stride len y k : Nat) : List (List Nat) :=
  (List.range k).map fun r => (List.range len).map fun j => mem ((y + r) * stride + j)

/-- What `encode` leaves in the file for a tensor of sizes `[c, h, w]` (see `encode_eq`). -/
def encodedStream (tensor : Tensor) (c h w : Nat) : PngStream :=
  { width := w % 2 ^ 32, height := h % 2 ^ 32, bitDepth := 8
    colorType := channel_idx_to_color.getD (c - 1) 0
    rows := rowsOf (tensor.permute 1 2 0).data (w * c) (w % 2 ^ 32 * c) 0 (if w = 0 then 0 else h)
    iend := true }

/-- Element `t[k][y][x]` of a 3-D tensor. -/
def Tensor.at3 (t : Tensor) (k y x : Nat) : Nat := t.data ((k * t.size 1 + y) * t.size 2 + x)

/-- The tensor `make_tensor_values<std::uint8_t>(values, dims)` of `PngTest.cpp`. -/
def make_tensor_values (values : List Nat) (dims : List Nat) : Tensor :=
  { dtype := .kUInt8, sizes := dims, data := fun i => values.getD i 0 }

/-- The tensor `image_rgba` of `testReadWritePngTensorsRGBA`. -/
def image_rgba : Tensor :=
  make_tensor_values [255, 0, 100, 100, 0, 255, 0, 100, 255, 0, 100, 255] [4, 1, 3]

/-- The tensor `image_g` of `testReadWritePngBatchedTensorsGray`. -/
def image_g_batched : Tensor := make_tensor_values [100, 0, 255, 255, 0, 100] [2, 1, 1, 3]

/-- A gray image of 65536 rows and 65536 columns, every sample 1. -/
def image_large : Tensor := { dtype := .kUInt8, sizes := [1, 65536, 65536], data := fun _ => 1 }

/-- A gray image of one row and `2^31` columns. -/
def image_wide : Tensor := { dtype := .kUInt8, sizes := [1, 1, 2147483648], data := fun _ => 0 }

/-- A gray image without rows: sizes `[1, 0, 5]`. -/
def image_no_rows : Tensor := { dtype := .kUInt8, sizes := [1, 0, 5], data := fun _ => 0 }

/-- A delimiter that is one NUL character. -/
def nulDelimiter : Path := [Char.ofNat 0]

/-- An environment where every name can be opened for writing and every write goes through. -/
def okEnv : Env := { canOpen := fun _ => true, writeError := fun _ => none }

/-- A file of seven bytes, the first seven of the PNG signature. -/
def sevenBytes : File := { head := [137, 80, 78, 71, 13, 10, 26], stream := none }

/-- A stack that holds the PNG signature where `char header[8]` is placed, as a call of `decode`
or `getDims` on a PNG file leaves it. -/
def staleHeader : Nat → Nat := fun i => pngSignature.getD i 0

/-- A PNG file whose header declares one row of one gray sample of depth 8 and whose image
data holds no row. -/
def noRows : File :=
  { head := pngSignature
    stream := some { width := 1, height := 1, bitDepth := 8, colorType := 0, rows := [],
                     iend := true } }

/-- A batch of one gray image of 65536 × 65536 samples, every sample 1. -/
def batch_large : Tensor :=
  { dtype := .kUInt8, sizes := [1, 1, 65536, 65536], data := fun _ => 1 }

/-- A file system without files. -/
def noFiles : FileSystem := fun _ => none

/-- The buffer `decode` allocates for a header,
`torch::empty({height, width, channels}, options)`, before its row loop starts. -/
def decodeBuffer (png : PngStream) (raw : Nat → Nat) : Tensor :=
  empty [png_get_image_height png, png_get_image_width png, png_get_channels png] raw

/-- A batch of two gray images of 1 × 3 samples with 32-bit floating point elements. -/
def batch_float : Tensor :=
  { dtype := .kFloat32, sizes := [2, 1, 1, 3], data := fun i => [3, 2, 1, 3, 2, 1].getD i 0 }

/-- The name `encode_batch` gives the file of index `i`. -/
def batchName (filepath delimiter : Path) (i : Nat) : Path :=
  replace_extension filepath [] ++ delimiter ++ to_string i ++ extension filepath

/-! ## Validation -/

theorem is_valid_channels_iff (c : Nat) : is_valid_channels c = true ↔ c ∈ [1, 2, 3, 4] := by
  simp only [is_valid_channels, List.mem_cons, List.mem_singleton, List.not_mem_nil, or_false]
  constructor
  · intro h
    split at h
    · omega
    · cases h
  · intro h
    rw [if_pos (by omega)]

theorem check_transform_cpy_ret (t : Tensor) (h3 : t.dim = 3) (h8 : t.dtype = .kUInt8)
    (hc : t.size 0 ∈ [1, 2, 3, 4]) : check_transform_cpy t = .ret (t.permute 1 2 0) := by
  have hv := (is_valid_channels_iff (t.size 0)).2 hc
  simp [check_transform_cpy, h3, h8, hv]

theorem check_transform_cpy_throw (t : Tensor)
    (h : t.dim ≠ 3 ∨ t.dtype ≠ .kUInt8 ∨ t.size 0 ∉ [1, 2, 3, 4]) :
    ∃ what, check_transform_cpy t = .invalidArgument what := by
  unfold check_transform_cpy
  by_cases h3 : t.dim = 3
  · by_cases h8 : t.dtype = .kUInt8
    · have hc : t.size 0 ∉ [1, 2, 3, 4] := by
        rcases h with h | h | h
        · exact absurd h3 h
        · exact absurd h8 h
        · exact h
      have hv : is_valid_channels (t.size 0) = false := by
        cases hb : is_valid_channels (t.size 0)
        · rfl
        · exact absurd ((is_valid_channels_iff _).1 hb) hc
      simp [h3, h8, hv]
    · simp [h3, h8]
  · simp [h3]

/-! ## The row loop of `encode` -/

theorem rowbytes_png_write_row (s : PngStream) (mem : Nat → Nat) (offset : Nat) :
    rowbytes (png_write_row s mem offset) = rowbytes s := rfl

theorem rowsOf_zero (mem : Nat → Nat) (stride len y : Nat) : rowsOf mem stride len y 0 = [] := rfl

theorem rowsOf_succ (mem : Nat → Nat) (stride len y k : Nat) :
    rowsOf mem stride len y (k + 1) =
      ((List.range len).map fun j => mem (y * stride + j)) :: rowsOf mem stride len (y + 1) k := by
  simp only [rowsOf, List.range_succ_eq_map, List.map_cons, List.map_map, Nat.add_zero]
  congr 1
  apply List.map_congr_left
  intro r _
  simp only [Function.comp, Nat.succ_eq_add_one]
  have : y + (r + 1) = y + 1 + r := by omega
  rw [this]

theorem length_rowsOf (mem : Nat → Nat) (stride len y k : Nat) :
    (rowsOf mem stride len y k).length = k := by
  simp [rowsOf]

theorem encodeRows_zero_bound (stride : Nat) (mem : Nat → Nat) (fuel offset : Nat)
    (png : PngStream) : encodeRows 0 stride mem (fuel + 1) offset png = some png := by
  simp [encodeRows]

theorem encodeRows_eq (stride : Nat) (mem : Nat → Nat) (hs : 0 < stride) :
    ∀ (k y fuel bound : Nat) (png : PngStream), k + 1 ≤ fuel → bound = (y + k) * stride →
      encodeRows bound stride mem fuel (y * stride) png =
        some { png with rows := png.rows ++ rowsOf mem stride (rowbytes png) y k } := by
  intro k
  induction k with
  | zero =>
    intro y fuel bound png hf hb
    obtain ⟨f, rfl⟩ : ∃ f, fuel = f + 1 := ⟨fuel - 1, by omega⟩
    subst hb
    simp [encodeRows, rowsOf_zero]
  | succ k ih =>
    intro y fuel bound png hf hb
    obtain ⟨f, rfl⟩ : ∃ f, fuel = f + 1 := ⟨fuel - 1, by omega⟩
    have hlt : y * stride < bound := by
      subst hb
      exact Nat.mul_lt_mul_of_pos_right (by omega) hs
    have hoff : y * stride + stride = (y + 1) * stride := by ring
    have hb2 : bound = (y + 1 + k) * stride := by rw [hb]; congr 1; omega
    rw [encodeRows, if_pos hlt, hoff, ih (y + 1) f bound _ (by omega) hb2]
    rw [rowbytes_png_write_row, rowsOf_succ]
    simp [png_write_row]

/-! ## What `encode` writes -/

theorem write_same (fsys : FileSystem) (p : Path) (f : File) : fsys.write p f p = some f := by
  simp [FileSystem.write]

theorem write_other (fsys : FileSystem) (p q : Path) (f : File) (h : q ≠ p) :
    fsys.write p f q = fsys q := by
  simp [FileSystem.write, h]

theorem write_write (fsys : FileSystem) (p : Path) (f g : File) :
    (fsys.write p f).write p g = fsys.write p g := by
  funext q
  by_cases h : q = p <;> simp [FileSystem.write, h]

theorem png_get_channels_table (s : PngStream) (c : Nat) (hc : c ∈ [1, 2, 3, 4])
    (h : s.colorType = channel_idx_to_color.getD (c - 1) 0) : png_get_channels s = c := by
  simp only [List.mem_cons, List.mem_singleton, List.not_mem_nil, or_false] at hc
  rcases hc with rfl | rfl | rfl | rfl <;>
    simp [png_get_channels, png_get_color_type, h, channel_idx_to_color]

theorem rowbytes_depth8 (s : PngStream) (c : Nat) (hc : c ∈ [1, 2, 3, 4])
    (h : s.colorType = channel_idx_to_color.getD (c - 1) 0) (hd : s.bitDepth = 8) :
    rowbytes s = s.width % 2 ^ 32 * c := by
  have hpos : 8 ≤ c * 8 := by
    simp only [List.mem_cons, List.mem_singleton, List.not_mem_nil, or_false] at hc
    omega
  simp only [rowbytes, PNG_ROWBYTES, png_get_channels_table s c hc h, png_get_bit_depth, hd,
    png_get_image_width]
  norm_num
  intro hlt
  omega

theorem c_str_of_no_nul (p : Path) (h : Char.ofNat 0 ∉ p) : c_str p = p := by
  unfold c_str
  rw [List.takeWhile_eq_self_iff]
  intro ch hch
  have : ch ≠ Char.ofNat 0 := fun e => h (e ▸ hch)
  simpa using this

/-- For the headers `encode` declares, `png_check_IHDR` accepts widths and heights from 1 to
1000000. -/
theorem png_check_IHDR_in_range (c W H : Nat) (hc : c ∈ [1, 2, 3, 4]) (hW : 1 ≤ W)
    (hW6 : W ≤ 1000000) (hH : 1 ≤ H) (hH6 : H ≤ 1000000) :
    png_check_IHDR W H 8 (channel_idx_to_color.getD (c - 1) 0) = false := by
  simp only [List.mem_cons, List.mem_singleton, List.not_mem_nil, or_false] at hc
  rcases hc with rfl | rfl | rfl | rfl <;>
    simp [png_check_IHDR, PNG_UINT_31_MAX, PNG_USER_WIDTH_MAX, PNG_USER_HEIGHT_MAX,
      channel_idx_to_color] <;> omega

/-- A width that `png_check_IHDR` accepts is not zero and not above 1000000. -/
theorem png_check_IHDR_width (W H d ct : Nat) (h : png_check_IHDR W H d ct = false) :
    1 ≤ W ∧ W ≤ 1000000 ∧ 1 ≤ H ∧ H ≤ 1000000 := by
  simp only [png_check_IHDR, PNG_USER_WIDTH_MAX, PNG_USER_HEIGHT_MAX, decide_eq_false_iff_not,
    not_or] at h
  omega

/-- The function `encode` on a tensor that passes validation, when the file cannot be opened. -/
theorem encode_fopen_fail (env : Env) (fsys : FileSystem) (filepath : Path)
    (tensor : Tensor) (h3 : tensor.dim = 3) (h8 : tensor.dtype = .kUInt8)
    (hc : tensor.size 0 ∈ [1, 2, 3, 4]) (hopen : env.canOpen (c_str filepath) = false) :
    encode env fsys filepath tensor = (fsys, .abort .fopen) := by
  simp [encode, check_transform_cpy_ret tensor h3 h8 hc, make_unique_fp_wb, hopen]

/-- The function `encode` on a tensor that passes validation, when libpng does not accept the
header: the file is left empty and the process aborts. -/
theorem encode_IHDR_fail (env : Env) (fsys : FileSystem) (filepath : Path)
    (tensor : Tensor) (c h w : Nat) (h8 : tensor.dtype = .kUInt8)
    (hs : tensor.sizes = [c, h, w]) (hc : c ∈ [1, 2, 3, 4])
    (hopen : env.canOpen (c_str filepath) = true)
    (hchk : png_check_IHDR (w % 2 ^ 32) (h % 2 ^ 32) 8 (channel_idx_to_color.getD (c - 1) 0)
      = true) :
    encode env fsys filepath tensor =
      (fsys.write (c_str filepath) ⟨[], none⟩, .abort .pngWrite) := by
  have h3 : tensor.dim = 3 := by simp [Tensor.dim, hs]
  have hc0 : tensor.size 0 ∈ [1, 2, 3, 4] := by simpa [Tensor.size, hs] using hc
  have hz0 : (tensor.permute 1 2 0).size 0 = h := by simp [Tensor.permute, Tensor.size, hs]
  have hz1 : (tensor.permute 1 2 0).size 1 = w := by simp [Tensor.permute, Tensor.size, hs]
  have hz2 : (tensor.permute 1 2 0).size 2 = c := by simp [Tensor.permute, Tensor.size, hs]
  simp only [encode, check_transform_cpy_ret tensor h3 h8 hc0, hz0, hz1, hz2, make_unique_fp_wb,
    hopen, if_true, png_set_IHDR, hchk]

/-- The function `encode` on a tensor that passes validation, when the file can be opened,
libpng accepts the header and a write fails: the process aborts, the file holding what had
been written. -/
theorem encode_write_fail (env : Env) (fsys : FileSystem) (filepath : Path)
    (tensor : Tensor) (c h w : Nat) (h8 : tensor.dtype = .kUInt8)
    (hs : tensor.sizes = [c, h, w]) (hc : c ∈ [1, 2, 3, 4])
    (hopen : env.canOpen (c_str filepath) = true) (remains : File)
    (hio : env.writeError (c_str filepath) = some remains)
    (hchk : png_check_IHDR (w % 2 ^ 32) (h % 2 ^ 32) 8 (channel_idx_to_color.getD (c - 1) 0)
      = false) :
    encode env fsys filepath tensor = (fsys.write (c_str filepath) remains, .abort .pngWrite) := by
  have h3 : tensor.dim = 3 := by simp [Tensor.dim, hs]
  have hc0 : tensor.size 0 ∈ [1, 2, 3, 4] := by simpa [Tensor.size, hs] using hc
  have hz0 : (tensor.permute 1 2 0).size 0 = h := by simp [Tensor.permute, Tensor.size, hs]
  have hz1 : (tensor.permute 1 2 0).size 1 = w := by simp [Tensor.permute, Tensor.size, hs]
  have hz2 : (tensor.permute 1 2 0).size 2 = c := by simp [Tensor.permute, Tensor.size, hs]
  simp only [encode, check_transform_cpy_ret tensor h3 h8 hc0, hz0, hz1, hz2, make_unique_fp_wb,
    hopen, if_true, png_set_IHDR, hchk, hio, write_write]
  simp

/-- The function `encode` on a tensor of sizes `[c, h, w]` that passes validation, when the
file can be opened, libpng accepts the header and every write goes through: what it leaves in
the file. -/
theorem encode_eq (env : Env) (fsys : FileSystem) (filepath : Path)
    (tensor : Tensor) (c h w : Nat)
    (h8 : tensor.dtype = .kUInt8) (hs : tensor.sizes = [c, h, w]) (hc : c ∈ [1, 2, 3, 4])
    (hopen : env.canOpen (c_str filepath) = true)
    (hio : env.writeError (c_str filepath) = none)
    (hchk : png_check_IHDR (w % 2 ^ 32) (h % 2 ^ 32) 8 (channel_idx_to_color.getD (c - 1) 0)
      = false) :
    encode env fsys filepath tensor =
      (fsys.write (c_str filepath) ⟨pngSignature, some (encodedStream tensor c h w)⟩,
        .ret ()) := by
  have h3 : tensor.dim = 3 := by simp [Tensor.dim, hs]
  have hc0 : tensor.size 0 ∈ [1, 2, 3, 4] := by simpa [Tensor.size, hs] using hc
  have hcpos : 0 < c := by
    simp only [List.mem_cons, List.mem_singleton, List.not_mem_nil, or_false] at hc
    omega
  have hz0 : (tensor.permute 1 2 0).size 0 = h := by simp [Tensor.permute, Tensor.size, hs]
  have hz1 : (tensor.permute 1 2 0).size 1 = w := by simp [Tensor.permute, Tensor.size, hs]
  have hz2 : (tensor.permute 1 2 0).size 2 = c := by simp [Tensor.permute, Tensor.size, hs]
  have hw : w ≠ 0 := by
    intro e
    subst e
    have := (png_check_IHDR_width _ _ _ _ hchk).1
    simp at this
  simp only [encode, check_transform_cpy_ret tensor h3 h8 hc0, hz0, hz1, hz2, make_unique_fp_wb,
    hopen, if_true, png_set_IHDR, hchk, hio, write_write]
  have hstride : 0 < w * c := Nat.mul_pos (Nat.pos_of_ne_zero hw) hcpos
  have hb : h * w * c = (0 + h) * (w * c) := by ring
  have := encodeRows_eq (w * c) (tensor.permute 1 2 0).data hstride h 0 (h * w * c + 1)
    (h * w * c)
    { width := w % 2 ^ 32, height := h % 2 ^ 32, bitDepth := 8
      colorType := channel_idx_to_color.getD (c - 1) 0, rows := [], iend := false }
    (by
      have : h ≤ h * (w * c) := Nat.le_mul_of_pos_right h hstride
      have e : h * w * c = h * (w * c) := by ring
      omega) hb
  rw [Nat.zero_mul] at this
  simp only [Bool.false_eq_true, if_false]
  rw [this, rowbytes_depth8 _ c hc rfl rfl]
  simp [png_write_end, hw, encodedStream]

/-- The function `encode` on a tensor that passes validation returns or aborts: it throws no
validation error. -/
theorem encode_not_invalid (env : Env) (fsys : FileSystem) (filepath : Path)
    (tensor : Tensor) (h3 : tensor.dim = 3) (h8 : tensor.dtype = .kUInt8)
    (hc : tensor.size 0 ∈ [1, 2, 3, 4]) (what : String) :
    (encode env fsys filepath tensor).2 ≠ .invalidArgument what := by
  unfold encode
  rw [check_transform_cpy_ret tensor h3 h8 hc]
  simp only
  split
  · simp
  · split
    · simp
    · split
      · simp
      · split <;> simp

/-- C3. Encode validation: `encode` throws `std::invalid_argument` exactly when the tensor does
not have 3 dimensions, or its element type is not unsigned 8-bit, or its first-axis size is
not one of 1, 2, 3, 4; in every other case validation passes (`check_transform_cpy`
returns the permuted copy) and no validation error is thrown. -/
theorem encode_validation (env : Env) (fsys : FileSystem) (filepath : Path)
    (tensor : Tensor) :
    ((∃ what, (encode env fsys filepath tensor).2 = .invalidArgument what) ↔
      (tensor.dim ≠ 3 ∨ tensor.dtype ≠ .kUInt8 ∨ tensor.size 0 ∉ [1, 2, 3, 4])) ∧
    (¬ (tensor.dim ≠ 3 ∨ tensor.dtype ≠ .kUInt8 ∨ tensor.size 0 ∉ [1, 2, 3, 4]) →
      check_transform_cpy tensor = .ret (tensor.permute 1 2 0) ∧
      ∀ what, (encode env fsys filepath tensor).2 ≠ .invalidArgument what) := by
  have good : ¬ (tensor.dim ≠ 3 ∨ tensor.dtype ≠ .kUInt8 ∨ tensor.size 0 ∉ [1, 2, 3, 4]) →
      check_transform_cpy tensor = .ret (tensor.permute 1 2 0) ∧
      ∀ what, (encode env fsys filepath tensor).2 ≠ .invalidArgument what := by
    intro hn
    have h3 : tensor.dim = 3 := by by_contra h; exact hn (Or.inl h)
    have h8 : tensor.dtype = .kUInt8 := by by_contra h; exact hn (Or.inr (Or.inl h))
    have hc : tensor.size 0 ∈ [1, 2, 3, 4] := by by_contra h; exact hn (Or.inr (Or.inr h))
    exact ⟨check_transform_cpy_ret tensor h3 h8 hc,
      encode_not_invalid env fsys filepath tensor h3 h8 hc⟩
  refine ⟨⟨?_, ?_⟩, good⟩
  · rintro ⟨what, hw⟩
    by_contra hn
    exact (good hn).2 what hw
  · intro hbad
    obtain ⟨what, hw⟩ := check_transform_cpy_throw tensor hbad
    exact ⟨what, by simp [encode, hw]⟩

/-- C9. Batch dimensionality: on a tensor whose number of dimensions is not 4, `encode_batch`
throws `std::invalid_argument` and leaves the file system as it was. -/
theorem encode_batch_not_4d (env : Env) (fsys : FileSystem) (filepath : Path)
    (tensor : Tensor) (delimiter : Path) (hdim : tensor.dim ≠ 4) :
    ∃ what, encode_batch env fsys filepath tensor delimiter =
      (fsys, .invalidArgument what) := by
  unfold encode_batch
  rw [if_pos hdim]
  exact ⟨_, rfl⟩

theorem encode_batch_not_4d_witness :
    ∃ what, encode_batch okEnv (fun _ => none) ['n', 'b']
        ⟨.kUInt8, [1, 1, 3], fun _ => 100⟩ ['_'] =
      ((fun _ => none), .invalidArgument what) :=
  encode_batch_not_4d okEnv (fun _ => none) ['n', 'b']
    ⟨.kUInt8, [1, 1, 3], fun _ => 100⟩ ['_'] (by decide)

/-! ## Index arithmetic of `permute` -/

theorem mul_add_divmod (a b n : Nat) (hb : b < n) : (a * n + b) / n = a ∧ (a * n + b) % n = b := by
  have hn : 0 < n := by omega
  constructor
  · rw [Nat.add_comm, Nat.add_mul_div_right _ _ hn, Nat.div_eq_of_lt hb, Nat.zero_add]
  · rw [Nat.add_comm, Nat.add_mul_mod_self_right, Nat.mod_eq_of_lt hb]

/-- The copy `permute({1, 2, 0})` of a `[c, h, w]` tensor holds `t[k][y][x]` at `(y * w + x) * c + k`. -/
theorem permute_1_2_0_data (t : Tensor) (c h w k y x : Nat) (hs : t.sizes = [c, h, w])
    (hk : k < c) (hx : x < w) :
    (t.permute 1 2 0).data ((y * w + x) * c + k) = t.data ((k * h + y) * w + x) := by
  obtain ⟨d1, m1⟩ := mul_add_divmod (y * w + x) k c hk
  obtain ⟨d2, m2⟩ := mul_add_divmod y x w hx
  simp [Tensor.permute, Tensor.size, hs, d1, m1, d2, m2]

/-- The copy `permute({2, 0, 1})` of a `[h, w, c]` tensor holds `t[y][x][k]` at `(k * h + y) * w + x`. -/
theorem permute_2_0_1_data (t : Tensor) (c h w k y x : Nat) (hs : t.sizes = [h, w, c])
    (hy : y < h) (hx : x < w) :
    (t.permute 2 0 1).data ((k * h + y) * w + x) = t.data ((y * w + x) * c + k) := by
  obtain ⟨d1, m1⟩ := mul_add_divmod (k * h + y) x w hx
  obtain ⟨d2, m2⟩ := mul_add_divmod k y h hy
  simp [Tensor.permute, Tensor.size, hs, d1, m1, d2, m2]

/-! ## C2: the layout `encode` hands to libpng -/

/-- The function `encode` on a tensor of sizes `[c, h, w]` that passes validation, with
`1 ≤ h, w ≤ 1000000`, a file that can be opened and writes that go through. -/
theorem encode_in_range (env : Env) (fsys : FileSystem) (filepath : Path)
    (tensor : Tensor) (c h w : Nat)
    (h8 : tensor.dtype = .kUInt8) (hs : tensor.sizes = [c, h, w]) (hc : c ∈ [1, 2, 3, 4])
    (hopen : env.canOpen (c_str filepath) = true)
    (hio : env.writeError (c_str filepath) = none) (hh : 1 ≤ h) (hh6 : h ≤ 1000000)
    (hw : 1 ≤ w) (hw6 : w ≤ 1000000) :
    encode env fsys filepath tensor =
      (fsys.write (c_str filepath) ⟨pngSignature, some (encodedStream tensor c h w)⟩,
        .ret ()) := by
  apply encode_eq env fsys filepath tensor c h w h8 hs hc hopen hio
  have hh' : h % 2 ^ 32 = h := Nat.mod_eq_of_lt (by omega)
  have hw' : w % 2 ^ 32 = w := Nat.mod_eq_of_lt (by omega)
  rw [hh', hw']
  exact png_check_IHDR_in_range c w h hc hw hw6 hh hh6

/-- C2 (amended). Encode pixel layout: for a valid tensor of sizes `[c, h, w]` with
`1 ≤ h ≤ 1000000` and `1 ≤ w ≤ 1000000`, written to a file that can be opened and takes the
writes, `encode` returns normally, declares width `w` and height `h` and hands libpng exactly
`h` rows in order, row `y` being `w * c` bytes whose byte `x * c + k` is `tensor[k][y][x]`. -/
theorem encode_layout (env : Env) (fsys : FileSystem) (filepath : Path)
    (tensor : Tensor) (c h w : Nat)
    (h8 : tensor.dtype = .kUInt8) (hs : tensor.sizes = [c, h, w]) (hc : c ∈ [1, 2, 3, 4])
    (hopen : env.canOpen (c_str filepath) = true)
    (hio : env.writeError (c_str filepath) = none) (hh : 1 ≤ h) (hh6 : h ≤ 1000000)
    (hw : 1 ≤ w) (hw6 : w ≤ 1000000) :
    (encode env fsys filepath tensor).2 = .ret () ∧
    ∃ png, (encode env fsys filepath tensor).1 (c_str filepath) =
        some ⟨pngSignature, some png⟩ ∧
      png.width = w ∧ png.height = h ∧ png.rows.length = h ∧
      ∀ y, y < h → ∃ row, png.rows[y]? = some row ∧ row.length = w * c ∧
        ∀ x k, x < w → k < c → row[x * c + k]? = some (tensor.at3 k y x) := by
  have hw32 : w < 2 ^ 32 := by omega
  have hh32 : h < 2 ^ 32 := by omega
  rw [encode_in_range env fsys filepath tensor c h w h8 hs hc hopen hio hh hh6 hw hw6]
  refine ⟨rfl, _, write_same _ _ _, ?_, ?_, ?_, ?_⟩
  · exact Nat.mod_eq_of_lt hw32
  · exact Nat.mod_eq_of_lt hh32
  · simp only [encodedStream, length_rowsOf]
    rw [if_neg (by omega)]
  · intro y hy
    have hw0 : w ≠ 0 := by omega
    simp only [encodedStream, Nat.mod_eq_of_lt hw32, if_neg hw0]
    refine ⟨(List.range (w * c)).map fun j => (tensor.permute 1 2 0).data ((0 + y) * (w * c) + j),
      ?_, by simp, ?_⟩
    · simp [rowsOf, hy]
    · intro x k hx hk
      have hlt : x * c + k < w * c := by
        calc x * c + k < x * c + c := by omega
          _ = (x + 1) * c := by ring
          _ ≤ w * c := Nat.mul_le_mul_right c hx
      have e : (0 + y) * (w * c) + (x * c + k) = (y * w + x) * c + k := by ring
      simp only [List.getElem?_map, List.getElem?_range hlt, Option.map_some', e]
      rw [permute_1_2_0_data tensor c h w k y x hs hk hx]
      simp [Tensor.at3, Tensor.size, hs]

theorem encode_layout_witness :
    (encode okEnv noFiles ['r', 'g', 'b', 'a'] image_rgba).2 = .ret () ∧
    ∃ png, (encode okEnv noFiles ['r', 'g', 'b', 'a'] image_rgba).1
        (c_str ['r', 'g', 'b', 'a']) = some ⟨pngSignature, some png⟩ ∧
      png.width = 3 ∧ png.height = 1 ∧ png.rows.length = 1 ∧
      ∀ y, y < 1 → ∃ row, png.rows[y]? = some row ∧ row.length = 3 * 4 ∧
        ∀ x k, x < 3 → k < 4 → row[x * 4 + k]? = some (image_rgba.at3 k y x) :=
  encode_layout okEnv noFiles ['r', 'g', 'b', 'a'] image_rgba 4 1 3 rfl rfl (by decide) rfl rfl
    (by decide) (by decide) (by decide) (by decide)

/-- C2 as stated fails on a gray image of one row and `2^31` columns written to a file that
can be opened and takes every write: libpng does not accept the width (it is above
`PNG_UINT_31_MAX`, and above the user limit), `encode` aborts, no header is declared and no
row is handed over; the file is left empty. -/
theorem encode_layout_wide_counterexample :
    image_wide.dtype = .kUInt8 ∧ image_wide.sizes = [1, 1, 2147483648] ∧
    encode okEnv noFiles ['a'] image_wide =
      (noFiles.write ['a'] ⟨[], none⟩, .abort .pngWrite) :=
  ⟨rfl, rfl, encode_IHDR_fail okEnv noFiles ['a'] image_wide 1 1 2147483648 rfl rfl (by decide)
    rfl (by decide)⟩

/-! ## The front of `decode` and `getDims` -/

theorem fread_signature (header : Nat → Nat) (bytes : List Nat)
    (h : bytes.take 8 = pngSignature) :
    (fread header 8 bytes).1 = 8 ∧ png_sig_cmp (fread header 8 bytes).2 0 8 = false := by
  simp only [fread, h]
  exact ⟨rfl, rfl⟩

/-- On a file with the PNG signature and a readable header, `decode` is its bit-depth check
followed by its row loop. -/
theorem decode_signed (header raw : Nat → Nat) (fsys : FileSystem) (filepath : Path) (fp : File)
    (png : PngStream) (hf : fsys (c_str filepath) = some fp) (hsig : fp.head.take 8 = pngSignature)
    (hst : fp.stream = some png) :
    decode header raw fsys filepath =
      if png_get_bit_depth png ≠ 8 then .abort .bitDepth
      else
        match decodeLoop (png_get_image_height png) (png_get_image_width png)
            (png_get_channels png) png.rows raw with
        | .running => .hang
        | .error => .abort .readRows
        | .done _ mem _ =>
          if !png.iend then .abort .readRows
          else .ret ({ empty [png_get_image_height png, png_get_image_width png,
            png_get_channels png] raw with data := mem }.permute 2 0 1) := by
  obtain ⟨h1, h2⟩ := fread_signature header fp.head hsig
  unfold decode make_unique_fp_rb
  rw [hf]
  simp only [h1, h2, png_read_info, hst, empty]
  simp

/-- On a file with the PNG signature and a readable header, `getDims` returns the header. -/
theorem getDims_signed (header : Nat → Nat) (fsys : FileSystem) (filepath : Path) (fp : File)
    (png : PngStream) (hf : fsys (c_str filepath) = some fp) (hsig : fp.head.take 8 = pngSignature)
    (hst : fp.stream = some png) :
    getDims header fsys filepath =
      .ret (toInt32 (png_get_image_height png), toInt32 (png_get_image_width png),
        png_get_channels png, png_get_bit_depth png, png_get_color_type png) := by
  obtain ⟨h1, h2⟩ := fread_signature header fp.head hsig
  unfold getDims make_unique_fp_rb
  rw [hf]
  simp only [h1, h2, png_read_info, hst]
  simp

/-! ## The row loop of `decode` -/

theorem decodeRows_zero_bound (stride fuel offset : Nat) (pending : List (List Nat))
    (mem : Nat → Nat) (reads : List Nat) :
    decodeRows 0 stride (fuel + 1) offset pending mem reads = .done pending mem reads := by
  simp [decodeRows]

/-- With enough rows in the stream, the loop ends after finitely many row reads. -/
theorem decodeRows_done (bound stride : Nat) :
    ∀ (fuel offset : Nat) (pending : List (List Nat)) (mem : Nat → Nat) (reads : List Nat),
      0 < fuel → bound + stride ≤ offset + fuel * stride →
      bound ≤ offset + pending.length * stride →
      ∃ p m r, decodeRows bound stride fuel offset pending mem reads = .done p m r := by
  intro fuel
  induction fuel with
  | zero => intro _ _ _ _ h; omega
  | succ f ih =>
    intro offset pending mem reads _ hfuel hrows
    rw [decodeRows]
    by_cases hlt : offset < bound
    · rw [if_pos hlt]
      cases pending with
      | nil => simp at hrows; omega
      | cons row rest =>
        simp only [png_read_row]
        have e : offset + (f + 1) * stride = offset + stride + f * stride := by ring
        have hf0 : 0 < f := by
          rcases Nat.eq_zero_or_pos f with h0 | h0
          · subst h0; simp at hfuel; omega
          · exact h0
        apply ih _ _ _ _ hf0 (by omega)
        simp only [List.length_cons] at hrows
        have e2 : offset + (rest.length + 1) * stride = offset + stride + rest.length * stride := by
          ring
        omega
    · rw [if_neg hlt]
      exact ⟨_, _, _, rfl⟩

/-- The loop never runs on for ever: it ends or libpng raises an error. -/
theorem decodeRows_ne_running (bound stride : Nat) :
    ∀ (fuel offset : Nat) (pending : List (List Nat)) (mem : Nat → Nat) (reads : List Nat),
      0 < fuel → bound + stride ≤ offset + fuel * stride →
      decodeRows bound stride fuel offset pending mem reads ≠ .running := by
  intro fuel
  induction fuel with
  | zero => intro _ _ _ _ h; omega
  | succ f ih =>
    intro offset pending mem reads _ hfuel
    rw [decodeRows]
    by_cases hlt : offset < bound
    · rw [if_pos hlt]
      cases pending with
      | nil => simp [png_read_row]
      | cons row rest =>
        simp only [png_read_row]
        have e : offset + (f + 1) * stride = offset + stride + f * stride := by ring
        have hf0 : 0 < f := by
          rcases Nat.eq_zero_or_pos f with h0 | h0
          · subst h0; simp at hfuel; omega
          · exact h0
        exact ih _ _ _ _ hf0 (by omega)
    · rw [if_neg hlt]
      simp

/-- Rows `y .. y + k - 1` in range: the loop makes exactly `k` reads, at the offsets
`y * stride, (y + 1) * stride, ...`, and takes the first `k` rows of the stream. -/
theorem decodeRows_reads (stride : Nat) (hs : 0 < stride) :
    ∀ (k y fuel bound : Nat) (pending : List (List Nat)) (mem : Nat → Nat) (reads : List Nat),
      k + 1 ≤ fuel → bound = (y + k) * stride → k ≤ pending.length →
      ∃ m, decodeRows bound stride fuel (y * stride) pending mem reads =
        .done (pending.drop k) m (reads ++ (List.range k).map fun r => (y + r) * stride) := by
  intro k
  induction k with
  | zero =>
    intro y fuel bound pending mem reads hf hb _
    obtain ⟨f, rfl⟩ : ∃ f, fuel = f + 1 := ⟨fuel - 1, by omega⟩
    subst hb
    exact ⟨mem, by simp [decodeRows]⟩
  | succ k ih =>
    intro y fuel bound pending mem reads hf hb hlen
    obtain ⟨f, rfl⟩ : ∃ f, fuel = f + 1 := ⟨fuel - 1, by omega⟩
    have hlt : y * stride < bound := by
      subst hb
      exact Nat.mul_lt_mul_of_pos_right (by omega) hs
    have hoff : y * stride + stride = (y + 1) * stride := by ring
    have hb2 : bound = (y + 1 + k) * stride := by rw [hb]; congr 1; omega
    cases pending with
    | nil => simp at hlen
    | cons row rest =>
      rw [decodeRows, if_pos hlt]
      simp only [png_read_row, hoff]
      obtain ⟨m, hm⟩ := ih (y + 1) f bound rest _ (reads ++ [y * stride]) (by omega) hb2
        (by simpa using hlen)
      refine ⟨m, ?_⟩
      rw [hm]
      simp only [List.drop_succ_cons, List.range_succ_eq_map, List.map_cons, List.map_map,
        List.append_assoc, List.singleton_append, Nat.add_zero]
      congr 3
      apply List.map_congr_left
      intro r _
      simp only [Function.comp, Nat.succ_eq_add_one]
      have : y + 1 + r = y + (r + 1) := by omega
      rw [this]

/-- Rows `y .. y + k - 1` in range, each row of the stream `stride` bytes long: after the loop,
byte `x` of row `r` of the stream is at offset `(y + r) * stride + x`, and the memory outside
`y * stride .. (y + k) * stride - 1` is as it was. -/
theorem decodeRows_cover (stride : Nat) (hs : 0 < stride) :
    ∀ (k y fuel bound : Nat) (pending : List (List Nat)) (mem : Nat → Nat) (reads : List Nat),
      k + 1 ≤ fuel → bound = (y + k) * stride → k ≤ pending.length →
      (∀ r, r < k → (pending.getD r []).length = stride) →
      ∃ m, decodeRows bound stride fuel (y * stride) pending mem reads =
          .done (pending.drop k) m (reads ++ (List.range k).map fun r => (y + r) * stride) ∧
        (∀ r x, r < k → x < stride →
          m ((y + r) * stride + x) = (pending.getD r []).getD x 0) ∧
        (∀ i, i < y * stride ∨ (y + k) * stride ≤ i → m i = mem i) := by
  intro k
  induction k with
  | zero =>
    intro y fuel bound pending mem reads hf hb _ _
    obtain ⟨f, rfl⟩ : ∃ f, fuel = f + 1 := ⟨fuel - 1, by omega⟩
    subst hb
    refine ⟨mem, by simp [decodeRows], ?_, fun _ _ => rfl⟩
    intro r x hr
    omega
  | succ k ih =>
    intro y fuel bound pending mem reads hf hb hlen hrow
    obtain ⟨f, rfl⟩ : ∃ f, fuel = f + 1 := ⟨fuel - 1, by omega⟩
    have hlt : y * stride < bound := by
      subst hb
      exact Nat.mul_lt_mul_of_pos_right (by omega) hs
    have hoff : y * stride + stride = (y + 1) * stride := by ring
    have hb2 : bound = (y + 1 + k) * stride := by rw [hb]; congr 1; omega
    cases pending with
    | nil => simp at hlen
    | cons row rest =>
      have hrow0 : row.length = stride := by
        have := hrow 0 (by omega)
        simpa using this
      obtain ⟨m, hm, hin, hout⟩ := ih (y + 1) f bound rest
        (fun i => if y * stride ≤ i ∧ i < y * stride + row.length then row.getD (i - y * stride) 0
                  else mem i)
        (reads ++ [y * stride]) (by omega) hb2 (by simpa using hlen)
        (fun r hr => by
          have := hrow (r + 1) (by omega)
          simpa using this)
      refine ⟨m, ?_, ?_, ?_⟩
      · rw [decodeRows, if_pos hlt]
        simp only [png_read_row, hoff]
        rw [hm]
        simp only [List.drop_succ_cons, List.range_succ_eq_map, List.map_cons, List.map_map,
          List.append_assoc, List.singleton_append, Nat.add_zero]
        congr 3
        apply List.map_congr_left
        intro r _
        simp only [Function.comp, Nat.succ_eq_add_one]
        have : y + 1 + r = y + (r + 1) := by omega
        rw [this]
      · intro r x hr hx
        cases r with
        | zero =>
          have e1 : (y + 1) * stride = y * stride + stride := by ring
          rw [Nat.add_zero, hout (y * stride + x) (Or.inl (by omega))]
          rw [if_pos ⟨by omega, by omega⟩]
          simp
        | succ r =>
          have e : (y + (r + 1)) * stride + x = (y + 1 + r) * stride + x := by
            congr 2; omega
          rw [e, hin r x (by omega) hx]
          simp
      · intro i hi
        have e1 : (y + 1) * stride = y * stride + stride := by ring
        have e2 : (y + 1 + k) * stride = (y + (k + 1)) * stride := by congr 1; omega
        have e3 : y * stride + stride ≤ (y + (k + 1)) * stride := by
          have : (y + (k + 1)) * stride = y * stride + stride + k * stride := by ring
          omega
        rw [hout i (by omega)]
        rw [if_neg (by omega)]

/-- Reading back the rows `y .. y + k - 1` of a memory `src` laid out in rows of `stride` bytes
copies the bytes `y * stride .. (y + k) * stride - 1` of `src`, and nothing else. -/
theorem decodeRows_rowsOf (src : Nat → Nat) (stride : Nat) (hs : 0 < stride) :
    ∀ (k y fuel bound : Nat) (rest : List (List Nat)) (mem : Nat → Nat) (reads : List Nat),
      k + 1 ≤ fuel → bound = (y + k) * stride →
      decodeRows bound stride fuel (y * stride) (rowsOf src stride stride y k ++ rest) mem reads =
        .done rest (fun i => if y * stride ≤ i ∧ i < (y + k) * stride then src i else mem i)
          (reads ++ (List.range k).map fun r => (y + r) * stride) := by
  intro k
  induction k with
  | zero =>
    intro y fuel bound rest mem reads hf hb
    obtain ⟨f, rfl⟩ : ∃ f, fuel = f + 1 := ⟨fuel - 1, by omega⟩
    subst hb
    have : (fun i => if y * stride ≤ i ∧ i < y * stride then src i else mem i) = mem := by
      funext i
      rw [if_neg (by omega)]
    simp [decodeRows, rowsOf_zero, this]
  | succ k ih =>
    intro y fuel bound rest mem reads hf hb
    obtain ⟨f, rfl⟩ : ∃ f, fuel = f + 1 := ⟨fuel - 1, by omega⟩
    have hlt : y * stride < bound := by
      subst hb
      exact Nat.mul_lt_mul_of_pos_right (by omega) hs
    have hoff : y * stride + stride = (y + 1) * stride := by ring
    have hb2 : bound = (y + 1 + k) * stride := by rw [hb]; congr 1; omega
    rw [decodeRows, if_pos hlt, rowsOf_succ]
    simp only [List.cons_append, png_read_row, hoff]
    rw [ih (y + 1) f bound rest _ (reads ++ [y * stride]) (by omega) hb2]
    congr 1
    · funext i
      simp only [List.length_map, List.length_range]
      have e1 : (y + 1 + k) * stride = (y + 1) * stride + k * stride := by ring
      have e2 : (y + (k + 1)) * stride = (y + 1) * stride + k * stride := by ring
      have e3 : (y + 1) * stride = y * stride + stride := by ring
      by_cases h1 : (y + 1) * stride ≤ i ∧ i < (y + 1 + k) * stride
      · rw [if_pos h1, if_pos (by omega)]
      · rw [if_neg h1]
        by_cases h2 : y * stride ≤ i ∧ i < y * stride + stride
        · rw [if_pos h2, if_pos (by omega)]
          have hj : i - y * stride < stride := by omega
          simp only [List.getD_eq_getElem?_getD, List.getElem?_map, List.getElem?_range hj,
            Option.map_some', Option.getD_some]
          congr 1
          omega
        · rw [if_neg h2, if_neg (by omega)]
    · simp only [List.range_succ_eq_map, List.map_cons, List.map_map,
        List.append_assoc, List.singleton_append, Nat.add_zero]
      congr 2
      apply List.map_congr_left
      intro r _
      simp only [Function.comp, Nat.succ_eq_add_one]
      have : y + 1 + r = y + (r + 1) := by omega
      rw [this]

/-! ## C1: `decode` after `encode` -/

/-- A flat index below `c * h * w` is `(k * h + y) * w + x` with `k < c`, `y < h`, `x < w`. -/
theorem split_index (c h w i : Nat) (hi : i < c * h * w) :
    ∃ k y x, k < c ∧ y < h ∧ x < w ∧ i = (k * h + y) * w + x := by
  have hw : 0 < w := by
    rcases Nat.eq_zero_or_pos w with h0 | h0
    · subst h0; simp at hi
    · exact h0
  have hh : 0 < h := by
    rcases Nat.eq_zero_or_pos h with h0 | h0
    · subst h0; simp at hi
    · exact h0
  have hq : i / w < c * h := (Nat.div_lt_iff_lt_mul hw).2 hi
  have hk : i / w / h < c := (Nat.div_lt_iff_lt_mul hh).2 hq
  refine ⟨i / w / h, i / w % h, i % w, hk, Nat.mod_lt _ hh, Nat.mod_lt _ hw, ?_⟩
  have e1 : i / w / h * h + i / w % h = i / w := by
    rw [Nat.mul_comm]; exact Nat.div_add_mod _ _
  rw [e1, Nat.mul_comm]
  exact (Nat.div_add_mod _ _).symm

/-- Permuting back a memory that holds the permuted copy of `tensor` gives `tensor`. -/
theorem permute_back (tensor : Tensor) (c h w : Nat) (hs : tensor.sizes = [c, h, w])
    (dt : ScalarType) (mem : Nat → Nat)
    (hmem : ∀ j, j < h * w * c → mem j = (tensor.permute 1 2 0).data j) (i : Nat)
    (hi : i < c * h * w) :
    (({ dtype := dt, sizes := [h, w, c], data := mem } : Tensor).permute 2 0 1).data i =
      tensor.data i := by
  obtain ⟨k, y, x, hk, hy, hx, rfl⟩ := split_index c h w i hi
  rw [permute_2_0_1_data _ c h w k y x rfl hy hx]
  have hj : (y * w + x) * c + k < h * w * c := by
    have h1 : y * w + x + 1 ≤ h * w := by
      calc y * w + x + 1 ≤ y * w + w := by omega
        _ = (y + 1) * w := by ring
        _ ≤ h * w := Nat.mul_le_mul_right w hy
    calc (y * w + x) * c + k < (y * w + x) * c + c := by omega
      _ = (y * w + x + 1) * c := by ring
      _ ≤ h * w * c := Nat.mul_le_mul_right c h1
  show mem ((y * w + x) * c + k) = _
  rw [hmem _ hj, permute_1_2_0_data tensor c h w k y x hs hk hx]

/-- The two products of `decode`'s loop when the image has fewer than `2^32` bytes. -/
theorem decode_products (c h w : Nat) (hh : 0 < h) (hc : 0 < c)
    (hsz : h * w * c < 2 ^ 32) :
    h * w % 2 ^ 32 * c % 2 ^ 32 = (0 + h) * (w * c) ∧ w * c % 2 ^ 32 = w * c := by
  have h1 : h * w ≤ h * w * c := Nat.le_mul_of_pos_right _ hc
  have h2 : w * c ≤ h * (w * c) := Nat.le_mul_of_pos_left _ hh
  have e : h * w * c = h * (w * c) := by ring
  have a1 : h * w % 2 ^ 32 = h * w := Nat.mod_eq_of_lt (by omega)
  have a2 : w * c % 2 ^ 32 = w * c := Nat.mod_eq_of_lt (by omega)
  rw [a1, Nat.mod_eq_of_lt hsz, a2]
  exact ⟨by ring, rfl⟩

/-- Reading back what `encode` leaves in a file, while the image has fewer than `2^32` bytes. -/
theorem decode_encodedStream (header raw : Nat → Nat) (fsys : FileSystem) (filepath : Path)
    (tensor : Tensor) (c h w : Nat)
    (hfile : fsys (c_str filepath) = some ⟨pngSignature, some (encodedStream tensor c h w)⟩)
    (hs : tensor.sizes = [c, h, w]) (hc : c ∈ [1, 2, 3, 4]) (hh32 : h < 2 ^ 32)
    (hw32 : w < 2 ^ 32) (hsz : h * w * c < 2 ^ 32) :
    ∃ t, decode header raw fsys filepath = .ret t ∧
      t.dtype = .kUInt8 ∧ t.sizes = [c, h, w] ∧ ∀ i, i < c * h * w → t.data i = tensor.data i := by
  have hcpos : 0 < c := by
    simp only [List.mem_cons, List.mem_singleton, List.not_mem_nil, or_false] at hc
    omega
  rw [decode_signed header raw _ filepath ⟨pngSignature, some (encodedStream tensor c h w)⟩
    (encodedStream tensor c h w) hfile rfl rfl]
  have hch : png_get_channels (encodedStream tensor c h w) = c :=
    png_get_channels_table _ c hc rfl
  have hbd : png_get_bit_depth (encodedStream tensor c h w) = 8 := rfl
  have hh' : h % 2 ^ 32 = h := Nat.mod_eq_of_lt hh32
  have hw' : w % 2 ^ 32 = w := Nat.mod_eq_of_lt hw32
  have hht : png_get_image_height (encodedStream tensor c h w) = h := by
    show h % 2 ^ 32 % 2 ^ 32 = h
    rw [hh', hh']
  have hwd : png_get_image_width (encodedStream tensor c h w) = w := by
    show w % 2 ^ 32 % 2 ^ 32 = w
    rw [hw', hw']
  have hrows : (encodedStream tensor c h w).rows =
      rowsOf (tensor.permute 1 2 0).data (w * c) (w * c) 0 (if w = 0 then 0 else h) := by
    show rowsOf _ _ (w % 2 ^ 32 * c) _ _ = _
    rw [hw']
  have hiend : (encodedStream tensor c h w).iend = true := rfl
  simp only [hch, hbd, hht, hwd, hrows, hiend]
  rw [if_neg (by norm_num)]
  by_cases hz : w = 0 ∨ h = 0
  · have hb : h * w % 2 ^ 32 * c % 2 ^ 32 = 0 := by
      rcases hz with rfl | rfl <;> simp
    simp only [decodeLoop, hb, decodeRows_zero_bound]
    refine ⟨_, rfl, rfl, rfl, ?_⟩
    intro i hi
    exfalso
    rcases hz with rfl | rfl <;> simp at hi
  · have hw0 : w ≠ 0 := fun e => hz (Or.inl e)
    have hh0 : 0 < h := Nat.pos_of_ne_zero fun e => hz (Or.inr e)
    obtain ⟨eb, es⟩ := decode_products c h w hh0 hcpos hsz
    have hstride : 0 < w * c := Nat.mul_pos (Nat.pos_of_ne_zero hw0) hcpos
    have hfuel : h + 1 ≤ (0 + h) * (w * c) + 1 := by
      have : h ≤ h * (w * c) := Nat.le_mul_of_pos_right h hstride
      simp only [Nat.zero_add]
      omega
    have hloop := decodeRows_rowsOf (tensor.permute 1 2 0).data (w * c) hstride h 0
      ((0 + h) * (w * c) + 1) ((0 + h) * (w * c)) [] raw [] hfuel rfl
    simp only [List.append_nil, Nat.zero_mul, List.nil_append] at hloop
    simp only [decodeLoop, eb, es, if_neg hw0, hloop]
    refine ⟨_, rfl, rfl, rfl, ?_⟩
    intro i hi
    apply permute_back tensor c h w hs
    · intro j hj
      have e : (0 + h) * (w * c) = h * w * c := by ring
      rw [if_pos ⟨Nat.zero_le _, by omega⟩]
    · exact hi

/-- Round trip while the image has fewer than `2^32` bytes: for an unsigned 8-bit tensor of
sizes `[c, h, w]` with `c ∈ {1, 2, 3, 4}`, `1 ≤ h, w ≤ 1000000` and `h * w * c < 2^32`, written
to a file that can be opened and takes the writes, `encode` returns normally and `decode` of
the file returns an
unsigned 8-bit tensor of sizes `[c, h, w]` with the same elements, whatever the stack and the
allocator held before. -/
theorem decode_encode_in_range (env : Env) (header raw : Nat → Nat)
    (fsys : FileSystem) (filepath : Path)
    (tensor : Tensor) (c h w : Nat) (h8 : tensor.dtype = .kUInt8)
    (hs : tensor.sizes = [c, h, w]) (hc : c ∈ [1, 2, 3, 4])
    (hopen : env.canOpen (c_str filepath) = true)
    (hio : env.writeError (c_str filepath) = none) (hh : 1 ≤ h) (hh6 : h ≤ 1000000)
    (hw : 1 ≤ w) (hw6 : w ≤ 1000000) (hsz : h * w * c < 2 ^ 32) :
    (encode env fsys filepath tensor).2 = .ret () ∧
    ∃ t, decode header raw (encode env fsys filepath tensor).1 filepath = .ret t ∧
      t.dtype = .kUInt8 ∧ t.sizes = [c, h, w] ∧ ∀ i, i < c * h * w → t.data i = tensor.data i := by
  rw [encode_in_range env fsys filepath tensor c h w h8 hs hc hopen hio hh hh6 hw hw6]
  refine ⟨rfl, ?_⟩
  exact decode_encodedStream header raw _ filepath tensor c h w (write_same fsys _ _) hs hc
    (by omega) (by omega) hsz

theorem decode_encode_in_range_witness :
    (encode okEnv noFiles ['r', 'g', 'b', 'a'] image_rgba).2 = .ret () ∧
    ∃ t, decode (fun _ => 0) (fun _ => 7)
        (encode okEnv noFiles ['r', 'g', 'b', 'a'] image_rgba).1
        ['r', 'g', 'b', 'a'] = .ret t ∧
      t.dtype = .kUInt8 ∧ t.sizes = [4, 1, 3] ∧
      ∀ i, i < 4 * 1 * 3 → t.data i = image_rgba.data i :=
  decode_encode_in_range okEnv (fun _ => 0) (fun _ => 7) noFiles ['r', 'g', 'b', 'a']
    image_rgba 4 1 3 rfl rfl (by decide) rfl rfl (by decide) (by decide) (by decide)
    (by decide) (by decide)

/-- When the bound is zero the row loop of `decode` ends at once. -/
theorem decodeLoop_zero_bound (h w c : Nat) (pending : List (List Nat)) (mem : Nat → Nat)
    (hb : h * w % 2 ^ 32 * c % 2 ^ 32 = 0) :
    decodeLoop h w c pending mem = .done pending mem [] := by
  simp only [decodeLoop, hb, decodeRows_zero_bound]

/-- On a file that holds what `encode` leaves for a gray image of 65536 × 65536 samples,
`decode` returns what the allocator handed out. -/
theorem decode_encodedStream_65536 (header raw : Nat → Nat) (fsys : FileSystem)
    (filepath : Path) (tensor : Tensor)
    (hfile : fsys (c_str filepath) =
      some ⟨pngSignature, some (encodedStream tensor 1 65536 65536)⟩) :
    decode header raw fsys filepath = .ret ((empty [65536, 65536, 1] raw).permute 2 0 1) := by
  rw [decode_signed header raw _ filepath
    ⟨pngSignature, some (encodedStream tensor 1 65536 65536)⟩
    (encodedStream tensor 1 65536 65536) hfile rfl rfl]
  have hch : png_get_channels (encodedStream tensor 1 65536 65536) = 1 := rfl
  have hbd : png_get_bit_depth (encodedStream tensor 1 65536 65536) = 8 := rfl
  have hht : png_get_image_height (encodedStream tensor 1 65536 65536) = 65536 := by
    norm_num [png_get_image_height, encodedStream]
  have hwd : png_get_image_width (encodedStream tensor 1 65536 65536) = 65536 := by
    norm_num [png_get_image_width, encodedStream]
  have hiend : (encodedStream tensor 1 65536 65536).iend = true := rfl
  rw [hbd, if_neg (by simp), hht, hwd, hch,
    decodeLoop_zero_bound 65536 65536 1 _ _ (by norm_num), hiend]
  rfl

/-- C1 at a gray image of 65536 × 65536 samples, every sample 1, written to a file that can
be opened and read back when the allocator hands out zeroed memory: `encode` returns
normally (libpng accepts the header and gets all 65536 rows), and `decode` returns a tensor
of the sizes of the image whose first element is 0, not 1. -/
theorem decode_encode_large :
    image_large.dtype = .kUInt8 ∧ image_large.sizes = [1, 65536, 65536] ∧
    (encode okEnv noFiles ['a'] image_large).2 = .ret () ∧
    ∃ t, decode (fun _ => 0) (fun _ => 0) (encode okEnv noFiles ['a'] image_large).1 ['a'] =
        .ret t ∧
      t.sizes = [1, 65536, 65536] ∧ t.data 0 = 0 ∧ image_large.data 0 = 1 := by
  have he := encode_in_range okEnv noFiles ['a'] image_large 1 65536 65536 rfl rfl (by decide)
    rfl rfl (by decide) (by decide) (by decide) (by decide)
  refine ⟨rfl, rfl, by rw [he], ?_⟩
  rw [he]
  exact ⟨_, decode_encodedStream_65536 (fun _ => 0) (fun _ => 0)
    (noFiles.write (c_str ['a']) ⟨pngSignature, some (encodedStream image_large 1 65536 65536)⟩)
    ['a'] image_large (write_same noFiles _ _), rfl, rfl, rfl⟩

/-! ## C10: how many rows `decode` reads -/

/-- C10 at a header of 65536 rows, 65536 columns and one channel: the loop bound of `decode` is
`65536 * 65536 * 1 mod 2^32 = 0`, so the loop ends at once, makes no row read and leaves the
`65536 * 65536` bytes of the buffer as the allocator handed them out. -/
theorem decodeLoop_65536 (pending : List (List Nat)) (mem : Nat → Nat) :
    decodeLoop 65536 65536 1 pending mem = .done pending mem [] := by
  have hb : 65536 * 65536 % 2 ^ 32 * 1 % 2 ^ 32 = 0 := by norm_num
  simp only [decodeLoop, hb, decodeRows_zero_bound]

theorem decode_bound_eq (h w c : Nat) :
    h * w % 2 ^ 32 * c % 2 ^ 32 = h * (w * c % 2 ^ 32) % 2 ^ 32 := by
  rw [Nat.mod_mul_mod, Nat.mul_mod_mod, Nat.mul_assoc]

/-- The row loop of `decode` never runs on for ever, whatever the header. -/
theorem decodeLoop_ne_running (h w c : Nat) (pending : List (List Nat)) (mem : Nat → Nat) :
    decodeLoop h w c pending mem ≠ .running := by
  unfold decodeLoop
  rcases Nat.eq_zero_or_pos (w * c % 2 ^ 32) with hz | hpos
  · have hb : h * w % 2 ^ 32 * c % 2 ^ 32 = 0 := by
      rw [decode_bound_eq, hz]; simp
    simp only [hb, decodeRows_zero_bound]
    simp
  · apply decodeRows_ne_running _ _ _ _ _ _ _ (by omega)
    have : h * w % 2 ^ 32 * c % 2 ^ 32 ≤ h * w % 2 ^ 32 * c % 2 ^ 32 * (w * c % 2 ^ 32) :=
      Nat.le_mul_of_pos_right _ hpos
    rw [Nat.zero_add, Nat.add_mul, Nat.one_mul]
    omega

/-- When the stream holds at least `h` rows the row loop of `decode` ends without a libpng
error, whatever the header. -/
theorem decodeLoop_done (h w c : Nat) (pending : List (List Nat)) (mem : Nat → Nat)
    (hrows : h ≤ pending.length) : ∃ p m r, decodeLoop h w c pending mem = .done p m r := by
  unfold decodeLoop
  rcases Nat.eq_zero_or_pos (w * c % 2 ^ 32) with hz | hpos
  · have hb : h * w % 2 ^ 32 * c % 2 ^ 32 = 0 := by
      rw [decode_bound_eq, hz]; simp
    simp only [hb, decodeRows_zero_bound]
    exact ⟨_, _, _, rfl⟩
  · apply decodeRows_done _ _ _ _ _ _ _ (by omega)
    · have : h * w % 2 ^ 32 * c % 2 ^ 32 ≤ h * w % 2 ^ 32 * c % 2 ^ 32 * (w * c % 2 ^ 32) :=
        Nat.le_mul_of_pos_right _ hpos
      rw [Nat.zero_add, Nat.add_mul, Nat.one_mul]
      omega
    · rw [Nat.zero_add, decode_bound_eq]
      calc h * (w * c % 2 ^ 32) % 2 ^ 32 ≤ h * (w * c % 2 ^ 32) := Nat.mod_le _ _
        _ ≤ pending.length * (w * c % 2 ^ 32) := Nat.mul_le_mul_right _ hrows

/-- Decode row coverage while `h * w * c < 2^32`: with `h ≥ 1`, `w ≥ 1`, `c ≥ 1` and a stream
of at least `h` rows, the loop ends after exactly `h` row reads, the `y`-th at byte offset
`y * (w * c)`. -/
theorem decodeLoop_reads (h w c : Nat) (pending : List (List Nat)) (mem : Nat → Nat)
    (hh : 1 ≤ h) (hw : 1 ≤ w) (hc : 1 ≤ c) (hsz : h * w * c < 2 ^ 32)
    (hrows : h ≤ pending.length) :
    ∃ m, decodeLoop h w c pending mem =
      .done (pending.drop h) m ((List.range h).map fun y => y * (w * c)) := by
  obtain ⟨eb, es⟩ := decode_products c h w hh hc hsz
  have hstride : 0 < w * c := Nat.mul_pos hw hc
  have hfuel : h + 1 ≤ (0 + h) * (w * c) + 1 := by
    have : h ≤ h * (w * c) := Nat.le_mul_of_pos_right h hstride
    simp only [Nat.zero_add]
    omega
  obtain ⟨m, hm⟩ := decodeRows_reads (w * c) hstride h 0 ((0 + h) * (w * c) + 1)
    ((0 + h) * (w * c)) pending mem [] hfuel rfl hrows
  refine ⟨m, ?_⟩
  simp only [Nat.zero_mul, List.nil_append, Nat.zero_add] at hm
  simp only [decodeLoop, eb, es, Nat.zero_add, hm]

/-- Decode row coverage while `h * w * c < 2^32`, for a stream whose first `h` rows are
`w * c` bytes long: the `h` reads land at the offsets `y * (w * c)`, put byte `x` of row `y` at
`y * (w * c) + x` (so they are disjoint and fill the `h * w * c` bytes of the buffer), and
touch nothing beyond the buffer. -/
theorem decodeLoop_cover (h w c : Nat) (pending : List (List Nat)) (mem : Nat → Nat)
    (hh : 1 ≤ h) (hw : 1 ≤ w) (hc : 1 ≤ c) (hsz : h * w * c < 2 ^ 32)
    (hrows : h ≤ pending.length) (hlen : ∀ r, r < h → (pending.getD r []).length = w * c) :
    ∃ m, decodeLoop h w c pending mem =
        .done (pending.drop h) m ((List.range h).map fun y => y * (w * c)) ∧
      (∀ y x, y < h → x < w * c → m (y * (w * c) + x) = (pending.getD y []).getD x 0) ∧
      (∀ i, h * w * c ≤ i → m i = mem i) := by
  obtain ⟨eb, es⟩ := decode_products c h w hh hc hsz
  have hstride : 0 < w * c := Nat.mul_pos hw hc
  have hfuel : h + 1 ≤ (0 + h) * (w * c) + 1 := by
    have : h ≤ h * (w * c) := Nat.le_mul_of_pos_right h hstride
    simp only [Nat.zero_add]
    omega
  obtain ⟨m, hm, hin, hout⟩ := decodeRows_cover (w * c) hstride h 0 ((0 + h) * (w * c) + 1)
    ((0 + h) * (w * c)) pending mem [] hfuel rfl hrows hlen
  refine ⟨m, ?_, ?_, ?_⟩
  · simp only [Nat.zero_mul, List.nil_append, Nat.zero_add] at hm
    simp only [decodeLoop, eb, es, Nat.zero_add, hm]
  · intro y x hy hx
    have := hin y x hy hx
    simpa using this
  · intro i hi
    apply hout i
    right
    have e : (0 + h) * (w * c) = h * w * c := by ring
    omega

theorem decodeLoop_cover_witness :
    ∃ m, decodeLoop 2 1 2 [[1, 2], [3, 4]] (fun _ => 0) =
        .done ([[1, 2], [3, 4]].drop 2) m ((List.range 2).map fun y => y * (1 * 2)) ∧
      (∀ y x, y < 2 → x < 1 * 2 → m (y * (1 * 2) + x) = ([[1, 2], [3, 4]].getD y []).getD x 0) ∧
      (∀ i, 2 * 1 * 2 ≤ i → m i = (fun _ => 0) i) :=
  decodeLoop_cover 2 1 2 [[1, 2], [3, 4]] (fun _ => 0) (by decide) (by decide) (by decide)
    (by decide) (by decide) (by decide)

theorem decodeLoop_reads_witness :
    ∃ m, decodeLoop 2 3 4 [[1], [2], [3]] (fun _ => 0) =
      .done ([[1], [2], [3]].drop 2) m ((List.range 2).map fun y => y * (3 * 4)) :=
  decodeLoop_reads 2 3 4 [[1], [2], [3]] (fun _ => 0) (by decide) (by decide) (by decide)
    (by decide) (by decide)

/-- The function `decode` always ends: it returns or it aborts. -/
theorem decode_ne_hang (header raw : Nat → Nat) (fsys : FileSystem) (filepath : Path) :
    decode header raw fsys filepath ≠ .hang := by
  unfold decode
  cases make_unique_fp_rb fsys (c_str filepath) with
  | none => simp
  | some fp =>
    simp only
    split
    · simp
    · split
      · simp
      · cases hinfo : png_read_info (fread header 8 fp.head).1 fp with
        | none => simp
        | some png =>
          simp only
          split
          · simp
          · have hnr := decodeLoop_ne_running (png_get_image_height png)
              (png_get_image_width png) (png_get_channels png) png.rows
              (empty [png_get_image_height png, png_get_image_width png,
                png_get_channels png] raw).data
            cases hl : decodeLoop (png_get_image_height png) (png_get_image_width png)
                (png_get_channels png) png.rows
                (empty [png_get_image_height png, png_get_image_width png,
                  png_get_channels png] raw).data with
            | running => exact absurd hl hnr
            | error => simp
            | done p m r =>
              simp only
              split <;> simp

/-! ## C6: `getDims` after `encode` -/

theorem toInt32_of_lt (n : Nat) (h : n < 2 ^ 31) : toInt32 n = (n : Int) := by
  have h1 : n % 2 ^ 32 = n := Nat.mod_eq_of_lt (by omega)
  unfold toInt32
  rw [h1, if_pos h]

/-- C6 (amended). Metadata accuracy: for a valid tensor of sizes `[c, h, w]` with
`1 ≤ h ≤ 1000000` and `1 ≤ w ≤ 1000000`, written to a file that can be opened and takes the
writes, `encode` returns normally and `getDims` on the file it wrote returns, in this order,
height `h`, width `w`, channels `c`, bit depth 8 and the colour type of the table
1 -> 0 (GRAY), 2 -> 4 (GRAY_ALPHA), 3 -> 2 (RGB), 4 -> 6 (RGB_ALPHA). -/
theorem getDims_encode (env : Env) (header : Nat → Nat) (fsys : FileSystem) (filepath : Path)
    (tensor : Tensor) (c h w : Nat) (h8 : tensor.dtype = .kUInt8)
    (hs : tensor.sizes = [c, h, w]) (hc : c ∈ [1, 2, 3, 4])
    (hopen : env.canOpen (c_str filepath) = true)
    (hio : env.writeError (c_str filepath) = none) (hh : 1 ≤ h) (hh6 : h ≤ 1000000)
    (hw : 1 ≤ w) (hw6 : w ≤ 1000000) :
    (encode env fsys filepath tensor).2 = .ret () ∧
    ∃ color_type, getDims header (encode env fsys filepath tensor).1 filepath =
        .ret ((h : Int), (w : Int), c, 8, color_type) ∧
      ((c = 1 ∧ color_type = 0) ∨ (c = 2 ∧ color_type = 4) ∨ (c = 3 ∧ color_type = 2) ∨
        (c = 4 ∧ color_type = 6)) := by
  rw [encode_in_range env fsys filepath tensor c h w h8 hs hc hopen hio hh hh6 hw hw6]
  refine ⟨rfl, ?_⟩
  rw [getDims_signed header _ filepath ⟨pngSignature, some (encodedStream tensor c h w)⟩
    (encodedStream tensor c h w) (write_same fsys _ _) rfl rfl]
  have hch : png_get_channels (encodedStream tensor c h w) = c :=
    png_get_channels_table _ c hc rfl
  have hbd : png_get_bit_depth (encodedStream tensor c h w) = 8 := rfl
  have hh' : h % 2 ^ 32 = h := Nat.mod_eq_of_lt (by omega)
  have hw' : w % 2 ^ 32 = w := Nat.mod_eq_of_lt (by omega)
  have hht : png_get_image_height (encodedStream tensor c h w) = h := by
    show h % 2 ^ 32 % 2 ^ 32 = h
    rw [hh', hh']
  have hwd : png_get_image_width (encodedStream tensor c h w) = w := by
    show w % 2 ^ 32 % 2 ^ 32 = w
    rw [hw', hw']
  rw [hch, hbd, hht, hwd, toInt32_of_lt h (by omega), toInt32_of_lt w (by omega)]
  refine ⟨_, rfl, ?_⟩
  simp only [List.mem_cons, List.mem_singleton, List.not_mem_nil, or_false] at hc
  rcases hc with rfl | rfl | rfl | rfl <;>
    simp [png_get_color_type, encodedStream, channel_idx_to_color]

theorem getDims_encode_witness :
    (encode okEnv noFiles ['r', 'g', 'b', 'a'] image_rgba).2 = .ret () ∧
    ∃ color_type, getDims (fun _ => 0) (encode okEnv noFiles ['r', 'g', 'b', 'a'] image_rgba).1
        ['r', 'g', 'b', 'a'] = .ret ((1 : Int), (3 : Int), 4, 8, color_type) ∧
      ((4 = 1 ∧ color_type = 0) ∨ (4 = 2 ∧ color_type = 4) ∨ (4 = 3 ∧ color_type = 2) ∨
        (4 = 4 ∧ color_type = 6)) :=
  getDims_encode okEnv (fun _ => 0) noFiles ['r', 'g', 'b', 'a'] image_rgba 4 1 3 rfl rfl
    (by decide) rfl rfl (by decide) (by decide) (by decide) (by decide)

/-- C6 as stated fails on a gray image without rows (sizes `[1, 0, 5]`) written to a file that
can be opened and takes every write: libpng does not accept the height 0, `encode` aborts and
leaves the file empty, and `getDims` on that file aborts at `fread`: it returns no tuple. -/
theorem getDims_encode_no_rows_counterexample :
    image_no_rows.dtype = .kUInt8 ∧ image_no_rows.sizes = [1, 0, 5] ∧
    encode okEnv noFiles ['a'] image_no_rows =
      (noFiles.write ['a'] ⟨[], none⟩, .abort .pngWrite) ∧
    getDims (fun _ => 0) (encode okEnv noFiles ['a'] image_no_rows).1 ['a'] = .abort .fread := by
  have he := encode_IHDR_fail okEnv noFiles ['a'] image_no_rows 1 0 5 rfl rfl (by decide) rfl
    (by decide)
  refine ⟨rfl, rfl, he, ?_⟩
  rw [he]
  rfl

/-! ## C7: the signature gate -/

/-- C7 at a file of seven bytes, the first seven of the PNG signature, when the stack holds the
PNG signature where `header` is placed: `fread` returns 7, which is not zero, the eight bytes
of `header` are the signature, and `decode` and `getDims` go on to `png_read_info`, past
`png_create_read_struct`; the abort comes from libpng's error handler. -/
theorem signature_gate_seven_bytes (raw : Nat → Nat) (filepath : Path) :
    decode staleHeader raw (fun _ => some sevenBytes) filepath = .abort .readInfo ∧
    getDims staleHeader (fun _ => some sevenBytes) filepath = .abort .readInfo ∧
    AbortSite.readInfo.beforeReadStruct = false :=
  ⟨rfl, rfl, rfl⟩

/-- A file without bytes is rejected at `fread`, whatever the stack held. -/
theorem signature_gate_empty (header raw : Nat → Nat) (fsys : FileSystem) (filepath : Path)
    (fp : File) (hf : fsys (c_str filepath) = some fp) (he : fp.head = []) :
    decode header raw fsys filepath = .abort .fread ∧
    getDims header fsys filepath = .abort .fread := by
  simp [decode, getDims, make_unique_fp_rb, hf, he, fread]

theorem signature_gate_empty_witness :
    decode staleHeader (fun _ => 0) (fun _ => some ⟨[], none⟩) ['e'] = .abort .fread ∧
    getDims staleHeader (fun _ => some ⟨[], none⟩) ['e'] = .abort .fread :=
  signature_gate_empty staleHeader (fun _ => 0) (fun _ => some ⟨[], none⟩) ['e'] ⟨[], none⟩
    rfl rfl

/-- A file of at least eight bytes that does not start with the PNG signature is rejected at
`png_sig_cmp`, whatever the stack held. -/
theorem signature_gate_mismatch (header raw : Nat → Nat) (fsys : FileSystem) (filepath : Path)
    (fp : File) (hf : fsys (c_str filepath) = some fp) (hlen : 8 ≤ fp.head.length)
    (hne : fp.head.take 8 ≠ pngSignature) :
    decode header raw fsys filepath = .abort .sigCmp ∧
    getDims header fsys filepath = .abort .sigCmp := by
  have hl : (fp.head.take 8).length = 8 := by
    rw [List.length_take]; omega
  have hcmp : png_sig_cmp (fread header 8 fp.head).2 0 8 = true := by
    by_contra hc
    apply hne
    have h8 : png_sig_cmp (fread header 8 fp.head).2 0 8 =
        !((List.range 8).all fun i =>
          (fread header 8 fp.head).2 (0 + i) == pngSignature.getD (0 + i) 0) := rfl
    rw [h8] at hc
    simp only [fread, hl, Bool.not_eq_true, Bool.not_eq_false', List.all_eq_true,
      List.mem_range, beq_iff_eq, Nat.zero_add] at hc
    apply List.ext_getElem?
    intro i
    by_cases hi : i < 8
    · have := hc i hi
      rw [if_pos hi] at this
      have h1 : i < (fp.head.take 8).length := by omega
      have h2 : i < pngSignature.length := hi
      rw [List.getD_eq_getElem _ _ h1, List.getD_eq_getElem _ _ h2] at this
      rw [List.getElem?_eq_getElem h1, List.getElem?_eq_getElem h2, this]
    · have h1 : (fp.head.take 8).length ≤ i := by omega
      have h2 : pngSignature.length ≤ i := by
        have : pngSignature.length = 8 := rfl
        omega
      rw [List.getElem?_eq_none h1, List.getElem?_eq_none h2]
  have hcount : (fread header 8 fp.head).1 = 8 := hl
  unfold decode getDims make_unique_fp_rb
  rw [hf]
  simp only [hcount, hcmp]
  simp

theorem signature_gate_mismatch_witness :
    decode staleHeader (fun _ => 0) (fun _ => some ⟨[0, 80, 78, 71, 13, 10, 26, 10], none⟩) ['m'] =
      .abort .sigCmp ∧
    getDims staleHeader (fun _ => some ⟨[0, 80, 78, 71, 13, 10, 26, 10], none⟩) ['m'] =
      .abort .sigCmp :=
  signature_gate_mismatch staleHeader (fun _ => 0)
    (fun _ => some ⟨[0, 80, 78, 71, 13, 10, 26, 10], none⟩) ['m']
    ⟨[0, 80, 78, 71, 13, 10, 26, 10], none⟩ rfl (by decide) (by decide)

/-- A file of fewer than eight bytes always ends `decode` and `getDims` in `abort()`: at `fread`,
at `png_sig_cmp`, or, past the gate, in libpng's error handler. -/
theorem short_file_aborts (header raw : Nat → Nat) (fsys : FileSystem) (filepath : Path)
    (fp : File) (hf : fsys (c_str filepath) = some fp) (hlen : fp.head.length < 8) :
    (∃ site, decode header raw fsys filepath = .abort site) ∧
    (∃ site, getDims header fsys filepath = .abort site) := by
  have hcount : (fread header 8 fp.head).1 < 8 := by
    simp only [fread, List.length_take]
    omega
  unfold decode getDims make_unique_fp_rb
  rw [hf]
  simp only [png_read_info, if_pos hcount]
  constructor <;>
  · split
    · exact ⟨_, rfl⟩
    · split <;> exact ⟨_, rfl⟩

theorem short_file_aborts_witness :
    (∃ site, decode staleHeader (fun _ => 0) (fun _ => some sevenBytes) ['s'] = .abort site) ∧
    (∃ site, getDims staleHeader (fun _ => some sevenBytes) ['s'] = .abort site) :=
  short_file_aborts staleHeader (fun _ => 0) (fun _ => some sevenBytes) ['s'] sevenBytes rfl
    (by decide)

/-! ## C8: the bit-depth gate of `decode` -/

/-- C8 (amended). Decode bit-depth gate: on a file with the PNG signature and a readable
header, `decode` aborts before allocating a tensor exactly when the declared bit depth is not
8, and then at the bit-depth check; with bit depth 8 it goes on to read rows and either
returns an unsigned 8-bit tensor of sizes `[channels, height, width]` or aborts from the
handler of libpng errors; it returns the tensor when the stream holds at least `height` rows
and ends as `png_read_end` expects. -/
theorem decode_bit_depth_gate (header raw : Nat → Nat) (fsys : FileSystem) (filepath : Path)
    (fp : File) (png : PngStream) (hf : fsys (c_str filepath) = some fp)
    (hsig : fp.head.take 8 = pngSignature) (hst : fp.stream = some png) :
    ((∃ site, decode header raw fsys filepath = .abort site ∧ site.beforeAllocation = true) ↔
      png_get_bit_depth png ≠ 8) ∧
    (png_get_bit_depth png ≠ 8 → decode header raw fsys filepath = .abort .bitDepth) ∧
    (png_get_bit_depth png = 8 →
      (decode header raw fsys filepath = .abort .readRows ∨
        ∃ t, decode header raw fsys filepath = .ret t ∧ t.dtype = .kUInt8 ∧
          t.sizes = [png_get_channels png, png_get_image_height png, png_get_image_width png]) ∧
      (png_get_image_height png ≤ png.rows.length → png.iend = true →
        ∃ t, decode header raw fsys filepath = .ret t ∧ t.dtype = .kUInt8 ∧
          t.sizes = [png_get_channels png, png_get_image_height png, png_get_image_width png])) := by
  rw [decode_signed header raw fsys filepath fp png hf hsig hst]
  by_cases hd : png_get_bit_depth png = 8
  · rw [if_neg (by simpa using hd)]
    have hnr := decodeLoop_ne_running (png_get_image_height png) (png_get_image_width png)
      (png_get_channels png) png.rows raw
    refine ⟨⟨?_, fun h => absurd hd h⟩, fun h => absurd hd h, fun _ => ⟨?_, ?_⟩⟩
    · rintro ⟨site, hsite, hbefore⟩
      exfalso
      cases hl : decodeLoop (png_get_image_height png) (png_get_image_width png)
          (png_get_channels png) png.rows raw with
      | running => exact hnr hl
      | error =>
        rw [hl] at hsite
        simp only [Outcome.abort.injEq] at hsite
        subst hsite
        simp [AbortSite.beforeAllocation] at hbefore
      | done p m r =>
        rw [hl] at hsite
        cases hi : png.iend
        · simp only [hi, Bool.not_false, if_true, Outcome.abort.injEq] at hsite
          subst hsite
          simp [AbortSite.beforeAllocation] at hbefore
        · simp [hi] at hsite
    · cases hl : decodeLoop (png_get_image_height png) (png_get_image_width png)
          (png_get_channels png) png.rows raw with
      | running => exact absurd hl hnr
      | error => exact Or.inl rfl
      | done p m r =>
        cases hi : png.iend
        · exact Or.inl rfl
        · exact Or.inr ⟨_, rfl, rfl, rfl⟩
    · intro hrows hiend
      obtain ⟨p, m, r, hl⟩ := decodeLoop_done (png_get_image_height png) (png_get_image_width png)
        (png_get_channels png) png.rows raw hrows
      rw [hl]
      simp only [hiend, Bool.not_true, Bool.false_eq_true, if_false]
      exact ⟨_, rfl, rfl, rfl⟩
  · rw [if_pos hd]
    refine ⟨⟨fun _ => hd, fun _ => ⟨_, rfl, rfl⟩⟩, fun _ => rfl, fun h => absurd h hd⟩

theorem decode_bit_depth_gate_witness :
    ∃ t, decode (fun _ => 0) (fun _ => 7)
        (fun _ => some ⟨pngSignature, some (encodedStream image_rgba 4 1 3)⟩) ['r'] = .ret t ∧
      t.dtype = .kUInt8 ∧
      t.sizes = [png_get_channels (encodedStream image_rgba 4 1 3),
        png_get_image_height (encodedStream image_rgba 4 1 3),
        png_get_image_width (encodedStream image_rgba 4 1 3)] :=
  ((decode_bit_depth_gate (fun _ => 0) (fun _ => 7)
    (fun _ => some ⟨pngSignature, some (encodedStream image_rgba 4 1 3)⟩) ['r']
    ⟨pngSignature, some (encodedStream image_rgba 4 1 3)⟩ (encodedStream image_rgba 4 1 3)
    rfl rfl rfl).2.2 rfl).2 (by decide) rfl

/-- C8 as stated fails on a file whose header declares bit depth 8 and one row, and whose image
data holds no row: `decode` passes the bit-depth check, allocates, and aborts from the
handler of libpng errors at the first `png_read_row`; it returns no tensor. -/
theorem decode_bit_depth_gate_counterexample :
    png_get_bit_depth ⟨1, 1, 8, 0, [], true⟩ = 8 ∧
    noRows.head = pngSignature ∧ noRows.stream = some ⟨1, 1, 8, 0, [], true⟩ ∧
    decode (fun _ => 0) (fun _ => 0) (fun _ => some noRows) ['a'] = .abort .readRows :=
  ⟨rfl, rfl, rfl, rfl⟩

/-! ## Names of the batch files -/

theorem digitChar_value (d : Nat) (h : d < 10) : (digitChar d).toNat - 48 = d := by
  interval_cases d <;> rfl

theorem digitsValue_toDigits :
    ∀ (fuel n : Nat) (acc : List Char), n < fuel →
      digitsValue 0 (toDigits fuel n acc) = digitsValue n acc := by
  intro fuel
  induction fuel with
  | zero => intro n acc h; omega
  | succ f ih =>
    intro n acc h
    rw [toDigits]
    by_cases h10 : n < 10
    · rw [if_pos h10]
      simp [digitsValue, digitChar_value n h10]
    · rw [if_neg h10, ih (n / 10) _ (by omega)]
      have hm : n % 10 < 10 := Nat.mod_lt _ (by decide)
      simp only [digitsValue, List.foldl_cons, digitChar_value _ hm]
      congr 1
      omega

theorem digitsValue_to_string (n : Nat) : digitsValue 0 (to_string n) = n := by
  rw [to_string, digitsValue_toDigits (n + 1) n [] (by omega)]
  rfl

theorem to_string_injective (a b : Nat) (h : to_string a = to_string b) : a = b := by
  rw [← digitsValue_to_string a, ← digitsValue_to_string b, h]

theorem fromLastDot_suffix : ∀ (f e : List Char), fromLastDot f = some e → e <:+ f := by
  intro f
  induction f with
  | nil => intro e h; simp [fromLastDot] at h
  | cons c cs ih =>
    intro e h
    rw [fromLastDot] at h
    cases hcs : fromLastDot cs with
    | some e2 =>
      rw [hcs] at h
      simp only [Option.some.injEq] at h
      subst h
      exact (ih e2 hcs).trans (List.suffix_cons c cs)
    | none =>
      rw [hcs] at h
      by_cases hd : c = '.'
      · rw [if_pos hd] at h
        simp only [Option.some.injEq] at h
        subst h
        exact List.suffix_refl _
      · simp [hd] at h

theorem filename_suffix : ∀ p : List Char, filename p <:+ p := by
  intro p
  induction p with
  | nil => exact List.suffix_refl _
  | cons c cs ih =>
    rw [filename]
    split
    · exact ih.trans (List.suffix_cons c cs)
    · split
      · exact List.suffix_cons c cs
      · exact List.suffix_refl _

theorem extension_suffix (p : Path) : extension p <:+ p := by
  unfold extension
  simp only
  split
  · exact List.nil_suffix
  · split
    · exact List.nil_suffix
    · rename_i e he
      split
      · exact List.nil_suffix
      · exact (fromLastDot_suffix _ e he).trans (filename_suffix p)

/-- The path without its extension, followed by the extension, is the path. -/
theorem replace_extension_append (p : Path) : replace_extension p [] ++ extension p = p := by
  obtain ⟨pre, hpre⟩ := extension_suffix p
  have hlen : p.length - (extension p).length = pre.length := by
    have : p.length = pre.length + (extension p).length := by
      nth_rewrite 1 [← hpre]
      simp
    omega
  simp only [replace_extension, hlen, ne_eq, not_true_eq_false, false_and, if_false,
    List.append_nil]
  nth_rewrite 1 [← hpre]
  rw [List.take_left]
  exact hpre

theorem batchName_injective (filepath delimiter : Path) (i j : Nat)
    (h : batchName filepath delimiter i = batchName filepath delimiter j) : i = j := by
  unfold batchName at h
  have h1 := List.append_cancel_right h
  rw [List.append_assoc, List.append_assoc] at h1
  have h2 := List.append_cancel_left h1
  exact to_string_injective i j (List.append_cancel_left h2)

/-! ## Names that hold no NUL character -/

theorem digitChar_ne_nul (d : Nat) : digitChar d ≠ Char.ofNat 0 := by
  unfold digitChar
  split <;> decide

theorem nul_not_mem_toDigits :
    ∀ (fuel n : Nat) (acc : List Char), Char.ofNat 0 ∉ acc →
      Char.ofNat 0 ∉ toDigits fuel n acc := by
  intro fuel
  induction fuel with
  | zero => intro n acc h; simpa [toDigits] using h
  | succ f ih =>
    intro n acc h
    rw [toDigits]
    split
    · intro hm
      rcases List.mem_cons.1 hm with e | e
      · exact digitChar_ne_nul n e.symm
      · exact h e
    · apply ih
      intro hm
      rcases List.mem_cons.1 hm with e | e
      · exact digitChar_ne_nul _ e.symm
      · exact h e

theorem nul_not_mem_to_string (n : Nat) : Char.ofNat 0 ∉ to_string n :=
  nul_not_mem_toDigits _ _ [] (List.not_mem_nil _)

theorem replace_extension_initial (p : Path) : replace_extension p [] <+: p := by
  simp only [replace_extension, ne_eq, not_true_eq_false, false_and, if_false, List.append_nil]
  exact List.take_prefix _ _

/-- A batch name built from a path and a delimiter without NUL characters is the C string
`fopen` reads. -/
theorem c_str_batchName (filepath delimiter : Path) (i : Nat)
    (hp : Char.ofNat 0 ∉ filepath) (hd : Char.ofNat 0 ∉ delimiter) :
    c_str (batchName filepath delimiter i) = batchName filepath delimiter i := by
  apply c_str_of_no_nul
  unfold batchName
  simp only [List.mem_append, not_or]
  exact ⟨⟨⟨fun h => hp ((replace_extension_initial filepath).subset h), hd⟩,
    nul_not_mem_to_string i⟩, fun h => hp ((extension_suffix filepath).subset h)⟩

/-! ## The loop of `encode_batch` -/

theorem decode_congr (header raw : Nat → Nat) (fsys fsys2 : FileSystem) (q : Path)
    (h : fsys (c_str q) = fsys2 (c_str q)) :
    decode header raw fsys q = decode header raw fsys2 q := by
  unfold decode make_unique_fp_rb
  rw [h]

/-- Whatever its outcome, `encode` touches no file but the one it opens. -/
theorem encode_frame (env : Env) (fsys : FileSystem) (filepath : Path) (tensor : Tensor)
    (q : Path) (hq : q ≠ c_str filepath) : (encode env fsys filepath tensor).1 q = fsys q := by
  unfold encode
  split
  · rfl
  · rfl
  · rfl
  · by_cases ho : env.canOpen (c_str filepath) = true
    · simp only [make_unique_fp_wb, ho, if_true]
      split
      · exact write_other _ _ _ _ hq
      · split
        · simp [FileSystem.write, hq]
        · split
          · exact write_other _ _ _ _ hq
          · simp [FileSystem.write, hq]
    · simp [make_unique_fp_wb, ho]

/-- Whatever its outcome, the loop of `encode_batch` touches no file but those it opens for
its indices. -/
theorem encodeBatchLoop_frame (env : Env) (tensor : Tensor) (delimiter ext stem : Path) :
    ∀ (remaining b : Nat) (fsys : FileSystem) (q : Path),
      (∀ i, b ≤ i → i < b + remaining → q ≠ c_str (stem ++ delimiter ++ to_string i ++ ext)) →
      (encodeBatchLoop env tensor delimiter ext stem remaining b stem fsys).1 q = fsys q := by
  intro remaining
  induction remaining with
  | zero => intro b fsys q _; rfl
  | succ k ih =>
    intro b fsys q hq
    have hname : stem ++ (delimiter ++ to_string b) ++ ext =
        stem ++ delimiter ++ to_string b ++ ext := by
      simp only [List.append_assoc]
    have hfr := encode_frame env fsys (stem ++ delimiter ++ to_string b ++ ext) (tensor.index b)
      q (hq b (Nat.le_refl b) (by omega))
    rw [encodeBatchLoop]
    simp only [hname]
    cases hE : encode env fsys (stem ++ delimiter ++ to_string b ++ ext) (tensor.index b) with
    | mk f o =>
      rw [hE] at hfr
      cases o with
      | ret u =>
        simp only
        rw [ih (b + 1) f q (fun i h1 h2 => hq i (by omega) (by omega))]
        exact hfr
      | invalidArgument what => exact hfr
      | abort site => exact hfr
      | hang => exact hfr

/-- The loop over a batch whose slices pass validation throws no validation error. -/
theorem encodeBatchLoop_not_invalid (env : Env) (tensor : Tensor) (delimiter ext stem : Path)
    (n c h w : Nat) (h8 : tensor.dtype = .kUInt8) (hs : tensor.sizes = [n, c, h, w])
    (hc : c ∈ [1, 2, 3, 4]) :
    ∀ (remaining b : Nat) (fsys : FileSystem) (what : String),
      (encodeBatchLoop env tensor delimiter ext stem remaining b stem fsys).2 ≠
        .invalidArgument what := by
  intro remaining
  induction remaining with
  | zero => intro b fsys what hw; cases hw
  | succ k ih =>
    intro b fsys what
    have hname : stem ++ (delimiter ++ to_string b) ++ ext =
        stem ++ delimiter ++ to_string b ++ ext := by
      simp only [List.append_assoc]
    have hni := encode_not_invalid env fsys (stem ++ delimiter ++ to_string b ++ ext)
      (tensor.index b) (by simp [Tensor.index, Tensor.dim, hs])
      (by simp [Tensor.index, h8]) (by simpa [Tensor.index, Tensor.size, hs] using hc)
    rw [encodeBatchLoop]
    simp only [hname]
    cases hE : encode env fsys (stem ++ delimiter ++ to_string b ++ ext) (tensor.index b) with
    | mk f o =>
      rw [hE] at hni
      cases o with
      | ret u => exact ih (b + 1) f what
      | invalidArgument what2 => exact absurd rfl (hni what2)
      | abort site => simp
      | hang => simp

/-- The loop over a batch of valid images with `1 ≤ h, w ≤ 1000000`, each name of which can be
opened and takes the writes: it returns normally, and it leaves at the name of index `i` what
`encode` leaves for slice `i`, unless a later index opens the same name. -/
theorem encodeBatchLoop_spec (env : Env) (tensor : Tensor) (delimiter ext stem : Path)
    (n c h w : Nat) (h8 : tensor.dtype = .kUInt8) (hs : tensor.sizes = [n, c, h, w])
    (hc : c ∈ [1, 2, 3, 4]) (hh : 1 ≤ h) (hh6 : h ≤ 1000000) (hw : 1 ≤ w) (hw6 : w ≤ 1000000) :
    ∀ (remaining b : Nat) (fsys : FileSystem),
      (∀ i, b ≤ i → i < b + remaining →
        env.canOpen (c_str (stem ++ delimiter ++ to_string i ++ ext)) = true ∧
        env.writeError (c_str (stem ++ delimiter ++ to_string i ++ ext)) = none) →
      (encodeBatchLoop env tensor delimiter ext stem remaining b stem fsys).2 = .ret () ∧
      (∀ i, b ≤ i → i < b + remaining →
        (∀ j, i < j → j < b + remaining →
          c_str (stem ++ delimiter ++ to_string j ++ ext) ≠
            c_str (stem ++ delimiter ++ to_string i ++ ext)) →
        (encodeBatchLoop env tensor delimiter ext stem remaining b stem fsys).1
            (c_str (stem ++ delimiter ++ to_string i ++ ext)) =
          some ⟨pngSignature, some (encodedStream (tensor.index i) c h w)⟩) := by
  intro remaining
  induction remaining with
  | zero =>
    intro b fsys _
    refine ⟨rfl, fun i h1 h2 => ?_⟩
    omega
  | succ k ih =>
    intro b fsys henv
    have hname : stem ++ (delimiter ++ to_string b) ++ ext =
        stem ++ delimiter ++ to_string b ++ ext := by
      simp only [List.append_assoc]
    have hslice := encode_in_range env fsys (stem ++ delimiter ++ to_string b ++ ext)
      (tensor.index b) c h w h8 (by simp [Tensor.index, hs]) hc
      (henv b (Nat.le_refl b) (by omega)).1 (henv b (Nat.le_refl b) (by omega)).2 hh hh6 hw hw6
    have hstep : encodeBatchLoop env tensor delimiter ext stem (k + 1) b stem fsys =
        encodeBatchLoop env tensor delimiter ext stem k (b + 1) stem
          (fsys.write (c_str (stem ++ delimiter ++ to_string b ++ ext))
            ⟨pngSignature, some (encodedStream (tensor.index b) c h w)⟩) := by
      rw [encodeBatchLoop]
      simp only [hname, hslice]
    rw [hstep]
    obtain ⟨ih1, ih2⟩ := ih (b + 1)
      (fsys.write (c_str (stem ++ delimiter ++ to_string b ++ ext))
        ⟨pngSignature, some (encodedStream (tensor.index b) c h w)⟩)
      (fun i h1 h2 => henv i (by omega) (by omega))
    refine ⟨ih1, ?_⟩
    intro i h1 h2 hlater
    rcases Nat.eq_or_lt_of_le h1 with rfl | hlt
    · rw [encodeBatchLoop_frame env tensor delimiter ext stem k (b + 1) _ _
        (fun j h3 h4 e => hlater j (by omega) (by omega) e.symm)]
      exact write_same _ _ _
    · exact ih2 i hlt (by omega) (fun j h3 h4 => hlater j h3 (by omega))

theorem encode_batch_loop (env : Env) (fsys : FileSystem) (filepath : Path) (tensor : Tensor)
    (delimiter : Path) (n c h w : Nat) (hs : tensor.sizes = [n, c, h, w]) :
    encode_batch env fsys filepath tensor delimiter =
      encodeBatchLoop env tensor delimiter (extension filepath) (replace_extension filepath [])
        n 0 (replace_extension filepath []) fsys := by
  have hdim : tensor.dim = 4 := by simp [Tensor.dim, hs]
  have hbatch : tensor.size 0 = n := by simp [Tensor.size, hs]
  unfold encode_batch
  rw [if_neg (by rw [hdim]; simp)]
  simp only [hbatch]

/-- What `encode_batch` does on a batch of valid images with `1 ≤ h, w ≤ 1000000`, each name
of which can be opened and takes the writes. -/
theorem encode_batch_spec (env : Env) (fsys : FileSystem) (filepath : Path) (tensor : Tensor)
    (delimiter : Path) (n c h w : Nat) (h8 : tensor.dtype = .kUInt8)
    (hs : tensor.sizes = [n, c, h, w]) (hc : c ∈ [1, 2, 3, 4])
    (hh : 1 ≤ h) (hh6 : h ≤ 1000000) (hw : 1 ≤ w) (hw6 : w ≤ 1000000)
    (henv : ∀ i, i < n → env.canOpen (c_str (batchName filepath delimiter i)) = true ∧
      env.writeError (c_str (batchName filepath delimiter i)) = none) :
    (encode_batch env fsys filepath tensor delimiter).2 = .ret () ∧
    (∀ q, (∀ i, i < n → q ≠ c_str (batchName filepath delimiter i)) →
      (encode_batch env fsys filepath tensor delimiter).1 q = fsys q) ∧
    (∀ i, i < n →
      (∀ j, i < j → j < n →
        c_str (batchName filepath delimiter j) ≠ c_str (batchName filepath delimiter i)) →
      (encode_batch env fsys filepath tensor delimiter).1
          (c_str (batchName filepath delimiter i)) =
        some ⟨pngSignature, some (encodedStream (tensor.index i) c h w)⟩) := by
  rw [encode_batch_loop env fsys filepath tensor delimiter n c h w hs]
  obtain ⟨l1, l3⟩ := encodeBatchLoop_spec env tensor delimiter (extension filepath)
    (replace_extension filepath []) n c h w h8 hs hc hh hh6 hw hw6 n 0 fsys
    (fun i _ h2 => henv i (by omega))
  refine ⟨l1, ?_, ?_⟩
  · intro q hq
    exact encodeBatchLoop_frame env tensor delimiter (extension filepath)
      (replace_extension filepath []) n 0 fsys q (fun i _ h2 => hq i (by omega))
  · intro i hi hlater
    exact l3 i (Nat.zero_le _) (by omega) (fun j h3 h4 => hlater j h3 (by omega))

/-! ## C4: the files `encode_batch` writes -/

/-- C4 (amended). Batch file names: for a path and a delimiter that hold no NUL character and a
valid 4-D tensor of sizes `[n, c, h, w]` with `1 ≤ h ≤ 1000000` and `1 ≤ w ≤ 1000000`, when
each of the names `stem ++ delimiter ++ decimal i ++ ext` (`i < n`) can be opened and takes
the writes, `encode_batch` returns normally; `ext` is the extension of the path and `stem` the
path without it (`stem ++ ext` is the path); for each `i < n` there is a file of that name, it
holds the encoding of slice `i` (PNG signature, header and rows of the slice), and that is what
`encode` alone writes for slice `i` under that name; the names of different indices are
different; and no other path is touched. -/
theorem encode_batch_names (env : Env) (fsys : FileSystem) (filepath : Path) (tensor : Tensor)
    (delimiter : Path) (n c h w : Nat) (h8 : tensor.dtype = .kUInt8)
    (hs : tensor.sizes = [n, c, h, w]) (hc : c ∈ [1, 2, 3, 4])
    (hp : Char.ofNat 0 ∉ filepath) (hd : Char.ofNat 0 ∉ delimiter)
    (hh : 1 ≤ h) (hh6 : h ≤ 1000000) (hw : 1 ≤ w) (hw6 : w ≤ 1000000)
    (henv : ∀ i, i < n →
      env.canOpen
        (replace_extension filepath [] ++ delimiter ++ to_string i ++ extension filepath) = true ∧
      env.writeError
        (replace_extension filepath [] ++ delimiter ++ to_string i ++ extension filepath) = none) :
    replace_extension filepath [] ++ extension filepath = filepath ∧
    (encode_batch env fsys filepath tensor delimiter).2 = .ret () ∧
    (∀ i, i < n →
      (encode_batch env fsys filepath tensor delimiter).1
          (replace_extension filepath [] ++ delimiter ++ to_string i ++ extension filepath) =
        some ⟨pngSignature, some (encodedStream (tensor.index i) c h w)⟩ ∧
      ∀ fsys2 : FileSystem, encode env fsys2
          (replace_extension filepath [] ++ delimiter ++ to_string i ++ extension filepath)
          (tensor.index i) =
        (fsys2.write
          (replace_extension filepath [] ++ delimiter ++ to_string i ++ extension filepath)
          ⟨pngSignature, some (encodedStream (tensor.index i) c h w)⟩, .ret ())) ∧
    (∀ i j,
      replace_extension filepath [] ++ delimiter ++ to_string i ++ extension filepath =
        replace_extension filepath [] ++ delimiter ++ to_string j ++ extension filepath →
      i = j) ∧
    (∀ q, (∀ i, i < n →
        q ≠ replace_extension filepath [] ++ delimiter ++ to_string i ++ extension filepath) →
      (encode_batch env fsys filepath tensor delimiter).1 q = fsys q) := by
  have hcs : ∀ i, c_str (batchName filepath delimiter i) = batchName filepath delimiter i :=
    fun i => c_str_batchName filepath delimiter i hp hd
  have henv2 : ∀ i, i < n → env.canOpen (c_str (batchName filepath delimiter i)) = true ∧
      env.writeError (c_str (batchName filepath delimiter i)) = none := by
    intro i hi
    rw [hcs i]
    exact henv i hi
  obtain ⟨b1, b2, b3⟩ := encode_batch_spec env fsys filepath tensor delimiter n c h w h8 hs hc
    hh hh6 hw hw6 henv2
  refine ⟨replace_extension_append filepath, b1, ?_, ?_, ?_⟩
  · intro i hi
    constructor
    · have := b3 i hi (fun j hij _ e => by
        rw [hcs j, hcs i] at e
        have := batchName_injective filepath delimiter j i e
        omega)
      rw [hcs i] at this
      exact this
    · intro fsys2
      have := encode_in_range env fsys2 (batchName filepath delimiter i) (tensor.index i) c h w
        h8 (by simp [Tensor.index, hs]) hc (henv2 i hi).1 (henv2 i hi).2 hh hh6 hw hw6
      rw [hcs i] at this
      exact this
  · intro i j hij
    exact batchName_injective filepath delimiter i j hij
  · intro q hq
    apply b2 q
    intro i hi
    rw [hcs i]
    exact hq i hi

theorem encode_batch_names_witness :
    replace_extension ['g', '.', 'p', 'n', 'g'] [] ++ extension ['g', '.', 'p', 'n', 'g'] =
      ['g', '.', 'p', 'n', 'g'] ∧
    (encode_batch okEnv noFiles ['g', '.', 'p', 'n', 'g'] image_g_batched ['_']).2 = .ret () ∧
    replace_extension ['g', '.', 'p', 'n', 'g'] [] ++ ['_'] ++ to_string 1 ++
      extension ['g', '.', 'p', 'n', 'g'] = ['g', '_', '1', '.', 'p', 'n', 'g'] :=
  ⟨(encode_batch_names okEnv noFiles ['g', '.', 'p', 'n', 'g'] image_g_batched ['_'] 2 1 1 3
      rfl rfl (by decide) (by decide) (by decide) (by decide) (by decide) (by decide)
      (by decide) (fun _ _ => ⟨rfl, rfl⟩)).1,
    (encode_batch_names okEnv noFiles ['g', '.', 'p', 'n', 'g'] image_g_batched ['_'] 2 1 1 3
      rfl rfl (by decide) (by decide) (by decide) (by decide) (by decide) (by decide)
      (by decide) (fun _ _ => ⟨rfl, rfl⟩)).2.1,
    by decide⟩

/-- C4 as stated fails for the delimiter that is one NUL character: on the batch of two gray
images of the test, with the path `g.png`, in an environment where every name can be opened
and every write goes through, `fopen` reads both names up to the NUL, both indices write the
file `g`, and `encode_batch` returns with one file written, `g`, which holds the encoding of
slice 1; there is no file of the name built for index 0 or for index 1. -/
theorem encode_batch_names_nul_counterexample :
    image_g_batched.dtype = .kUInt8 ∧ image_g_batched.sizes = [2, 1, 1, 3] ∧
    batchName ['g', '.', 'p', 'n', 'g'] nulDelimiter 0 =
      ['g', Char.ofNat 0, '0', '.', 'p', 'n', 'g'] ∧
    batchName ['g', '.', 'p', 'n', 'g'] nulDelimiter 1 =
      ['g', Char.ofNat 0, '1', '.', 'p', 'n', 'g'] ∧
    (encode_batch okEnv noFiles ['g', '.', 'p', 'n', 'g'] image_g_batched nulDelimiter).2 =
      .ret () ∧
    (encode_batch okEnv noFiles ['g', '.', 'p', 'n', 'g'] image_g_batched nulDelimiter).1 ['g'] =
      some ⟨pngSignature, some (encodedStream (image_g_batched.index 1) 1 1 3)⟩ ∧
    ∀ q, q ≠ ['g'] →
      (encode_batch okEnv noFiles ['g', '.', 'p', 'n', 'g'] image_g_batched nulDelimiter).1 q =
        none := by
  have hcs : ∀ i, i < 2 → c_str (batchName ['g', '.', 'p', 'n', 'g'] nulDelimiter i) = ['g'] := by
    intro i hi
    interval_cases i <;> decide
  obtain ⟨b1, b2, b3⟩ := encode_batch_spec okEnv noFiles ['g', '.', 'p', 'n', 'g']
    image_g_batched nulDelimiter 2 1 1 3 rfl rfl (by decide) (by decide) (by decide) (by decide)
    (by decide) (fun _ _ => ⟨rfl, rfl⟩)
  refine ⟨rfl, rfl, by decide, by decide, b1, ?_, ?_⟩
  · have := b3 1 (by decide) (fun j h1 h2 => by omega)
    rw [hcs 1 (by decide)] at this
    exact this
  · intro q hq
    rw [b2 q (fun i hi => by rw [hcs i hi]; exact hq)]
    rfl

/-! ## C5: the batch round trip -/

/-- Batch round trip while each image has fewer than `2^32` bytes: for an unsigned 8-bit tensor
of sizes `[n, c, h, w]` with `c ∈ {1, 2, 3, 4}`, `1 ≤ h, w ≤ 1000000` and `h * w * c < 2^32`, a
path and a delimiter that hold no NUL character, and names that can be opened and take the
writes, `encode_batch` returns normally and afterwards the file
`stem ++ delimiter ++ decimal i ++ ext` decodes, for each `i < n`, to an unsigned 8-bit tensor
of sizes `[c, h, w]` whose element `j` is element `i * (c * h * w) + j` of the batch: stacked
along a new leading axis, the decoded tensors are the batch. -/
theorem decode_encode_batch_in_range (env : Env) (header raw : Nat → Nat) (fsys : FileSystem)
    (filepath : Path) (tensor : Tensor) (delimiter : Path) (n c h w : Nat)
    (h8 : tensor.dtype = .kUInt8) (hs : tensor.sizes = [n, c, h, w]) (hc : c ∈ [1, 2, 3, 4])
    (hp : Char.ofNat 0 ∉ filepath) (hd : Char.ofNat 0 ∉ delimiter)
    (hh : 1 ≤ h) (hh6 : h ≤ 1000000) (hw : 1 ≤ w) (hw6 : w ≤ 1000000)
    (hsz : h * w * c < 2 ^ 32)
    (henv : ∀ i, i < n → env.canOpen (batchName filepath delimiter i) = true ∧
      env.writeError (batchName filepath delimiter i) = none)
    (i : Nat) (hi : i < n) :
    (encode_batch env fsys filepath tensor delimiter).2 = .ret () ∧
    ∃ t, decode header raw (encode_batch env fsys filepath tensor delimiter).1
        (batchName filepath delimiter i) = .ret t ∧
      t.dtype = .kUInt8 ∧ t.sizes = [c, h, w] ∧
      ∀ j, j < c * h * w → t.data j = tensor.data (i * (c * h * w) + j) := by
  have hcs : ∀ i, c_str (batchName filepath delimiter i) = batchName filepath delimiter i :=
    fun i => c_str_batchName filepath delimiter i hp hd
  obtain ⟨b1, _, b3⟩ := encode_batch_spec env fsys filepath tensor delimiter n c h w h8 hs hc
    hh hh6 hw hw6 (fun i hi => by rw [hcs i]; exact henv i hi)
  have hfile := b3 i hi (fun j hij _ e => by
    rw [hcs j, hcs i] at e
    have := batchName_injective filepath delimiter j i e
    omega)
  obtain ⟨t, ht, hd, hz, hel⟩ := decode_encodedStream header raw
    (encode_batch env fsys filepath tensor delimiter).1 (batchName filepath delimiter i)
    (tensor.index i) c h w hfile (by simp [Tensor.index, hs]) hc (by omega) (by omega) hsz
  refine ⟨b1, t, ht, hd, hz, ?_⟩
  intro j hj
  rw [hel j hj]
  simp only [Tensor.index, hs, List.tail_cons, List.prod_cons, List.prod_nil, Nat.mul_one]
  congr 2
  ring

theorem decode_encode_batch_in_range_witness :
    (encode_batch okEnv noFiles ['g', '.', 'p', 'n', 'g'] image_g_batched ['_']).2 = .ret () ∧
    ∃ t, decode (fun _ => 0) (fun _ => 7)
        (encode_batch okEnv noFiles ['g', '.', 'p', 'n', 'g'] image_g_batched ['_']).1
        (batchName ['g', '.', 'p', 'n', 'g'] ['_'] 1) = .ret t ∧
      t.dtype = .kUInt8 ∧ t.sizes = [1, 1, 3] ∧
      ∀ j, j < 1 * 1 * 3 → t.data j = image_g_batched.data (1 * (1 * 1 * 3) + j) :=
  decode_encode_batch_in_range okEnv (fun _ => 0) (fun _ => 7) noFiles ['g', '.', 'p', 'n', 'g']
    image_g_batched ['_'] 2 1 1 3 rfl rfl (by decide) (by decide) (by decide) (by decide)
    (by decide) (by decide) (by decide) (by decide) (fun _ _ => ⟨rfl, rfl⟩) 1 (by decide)

/-- C5 at a batch of one gray image of 65536 × 65536 samples, every sample 1, written under
the path `a` with the delimiter `_` in an environment where every name can be opened and
every write goes through, and read back when the allocator hands out zeroed memory:
`encode_batch` returns normally, and the file `a_0` decodes to a tensor of the sizes of the
image whose first element is 0, not 1. -/
theorem decode_encode_batch_large :
    batch_large.dtype = .kUInt8 ∧ batch_large.sizes = [1, 1, 65536, 65536] ∧
    batchName ['a'] ['_'] 0 = ['a', '_', '0'] ∧
    (encode_batch okEnv noFiles ['a'] batch_large ['_']).2 = .ret () ∧
    ∃ t, decode (fun _ => 0) (fun _ => 0) (encode_batch okEnv noFiles ['a'] batch_large ['_']).1
        (batchName ['a'] ['_'] 0) = .ret t ∧
      t.sizes = [1, 65536, 65536] ∧ t.data 0 = 0 ∧
      batch_large.data (0 * (1 * 65536 * 65536) + 0) = 1 := by
  obtain ⟨b1, _, b3⟩ := encode_batch_spec okEnv noFiles ['a'] batch_large ['_'] 1 1 65536 65536
    rfl rfl (by decide) (by decide) (by decide) (by decide) (by decide)
    (fun _ _ => ⟨rfl, rfl⟩)
  have hfile := b3 0 Nat.zero_lt_one (fun j h1 h2 => by omega)
  exact ⟨rfl, rfl, by decide, b1, _, decode_encodedStream_65536 (fun _ => 0) (fun _ => 0)
    (encode_batch okEnv noFiles ['a'] batch_large ['_']).1 (batchName ['a'] ['_'] 0)
    (batch_large.index 0) hfile, rfl, rfl, rfl⟩

/-! ## C11: the buffer `decode` allocates -/

/-- C11 (amended). Decode buffer initialisation: on a file with the PNG signature and a
readable header of bit depth 8, the buffer `decode` allocates has sizes
`[height, width, channels]` and unsigned 8-bit elements, it is the memory the row loop starts
from, and before the first row is read its elements are those the allocator handed out
(`torch::empty` writes none of them). -/
theorem decode_buffer (header raw : Nat → Nat) (fsys : FileSystem) (filepath : Path)
    (fp : File) (png : PngStream) (hf : fsys (c_str filepath) = some fp)
    (hsig : fp.head.take 8 = pngSignature) (hst : fp.stream = some png)
    (hd : png_get_bit_depth png = 8) :
    (decodeBuffer png raw).sizes =
      [png_get_image_height png, png_get_image_width png, png_get_channels png] ∧
    (decodeBuffer png raw).dtype = .kUInt8 ∧
    (∀ i, (decodeBuffer png raw).data i = raw i) ∧
    decode header raw fsys filepath =
      match decodeLoop (png_get_image_height png) (png_get_image_width png)
          (png_get_channels png) png.rows (decodeBuffer png raw).data with
      | .running => .hang
      | .error => .abort .readRows
      | .done _ mem _ =>
        if !png.iend then .abort .readRows
        else .ret ({ decodeBuffer png raw with data := mem }.permute 2 0 1) := by
  refine ⟨rfl, rfl, fun _ => rfl, ?_⟩
  rw [decode_signed header raw fsys filepath fp png hf hsig hst, if_neg (by simpa using hd)]
  rfl

theorem decode_buffer_witness :
    (decodeBuffer (encodedStream image_rgba 4 1 3) (fun _ => 7)).sizes =
      [png_get_image_height (encodedStream image_rgba 4 1 3),
        png_get_image_width (encodedStream image_rgba 4 1 3),
        png_get_channels (encodedStream image_rgba 4 1 3)] ∧
    (decodeBuffer (encodedStream image_rgba 4 1 3) (fun _ => 7)).dtype = .kUInt8 :=
  ⟨(decode_buffer (fun _ => 0) (fun _ => 7)
      (fun _ => some ⟨pngSignature, some (encodedStream image_rgba 4 1 3)⟩) ['r']
      ⟨pngSignature, some (encodedStream image_rgba 4 1 3)⟩ (encodedStream image_rgba 4 1 3)
      rfl rfl rfl rfl).1,
    (decode_buffer (fun _ => 0) (fun _ => 7)
      (fun _ => some ⟨pngSignature, some (encodedStream image_rgba 4 1 3)⟩) ['r']
      ⟨pngSignature, some (encodedStream image_rgba 4 1 3)⟩ (encodedStream image_rgba 4 1 3)
      rfl rfl rfl rfl).2.1⟩

/-- C11 as stated fails when the allocator hands out memory that holds 7 everywhere: for the
header of a 1 × 3 RGBA image of bit depth 8 the buffer has sizes `[1, 3, 4]` and its first
element is 7 before the first row is read. -/
theorem decode_buffer_counterexample :
    png_get_bit_depth (encodedStream image_rgba 4 1 3) = 8 ∧
    (decodeBuffer (encodedStream image_rgba 4 1 3) (fun _ => 7)).sizes = [1, 3, 4] ∧
    (decodeBuffer (encodedStream image_rgba 4 1 3) (fun _ => 7)).data 0 = 7 :=
  ⟨rfl, by decide, rfl⟩

/-! ## C12: validation in `encode_batch` -/

/-- Every slice of a 4-D tensor of sizes `[n, c, h, w]` is a 3-D tensor of the element type of
the batch with `c` channels. -/
theorem index_shape (tensor : Tensor) (n c h w i : Nat) (hs : tensor.sizes = [n, c, h, w]) :
    (tensor.index i).dim = 3 ∧ (tensor.index i).dtype = tensor.dtype ∧
    (tensor.index i).size 0 = c := by
  simp [Tensor.index, Tensor.dim, Tensor.size, hs]

/-- A batch of at least one image whose slices fail validation: the loop stops at index 0 with
the error of `check_transform_cpy`, and the file system is as it was. -/
theorem encode_batch_throw (env : Env) (fsys : FileSystem) (filepath : Path) (tensor : Tensor)
    (delimiter : Path) (n c h w : Nat) (hs : tensor.sizes = [n, c, h, w]) (hn : 1 ≤ n)
    (hbad : tensor.dtype ≠ .kUInt8 ∨ c ∉ [1, 2, 3, 4]) :
    ∃ what, check_transform_cpy (tensor.index 0) = .invalidArgument what ∧
      encode_batch env fsys filepath tensor delimiter = (fsys, .invalidArgument what) := by
  obtain ⟨h3, h8, h0⟩ := index_shape tensor n c h w 0 hs
  obtain ⟨what, hwhat⟩ := check_transform_cpy_throw (tensor.index 0)
    (by
      rcases hbad with hb | hb
      · exact Or.inr (Or.inl (by rw [h8]; exact hb))
      · exact Or.inr (Or.inr (by rw [h0]; exact hb)))
  refine ⟨what, hwhat, ?_⟩
  obtain ⟨m, rfl⟩ : ∃ m, n = m + 1 := ⟨n - 1, by omega⟩
  rw [encode_batch_loop env fsys filepath tensor delimiter (m + 1) c h w hs]
  rw [encodeBatchLoop]
  simp only [encode, hwhat]

/-- C12. Batch validation is all-or-nothing, the loop run sequentially: for a 4-D tensor of
sizes `[n, c, h, w]`, `encode_batch` throws `std::invalid_argument` exactly when `n ≥ 1` and
the element type is not unsigned 8-bit or `c` is not one of 1, 2, 3, 4; the error is then
that of `check_transform_cpy` on slice 0, which `encode` calls before it opens a file, and
the file system is as it was; when slice 0 passes validation every slice does; and with
`n = 0` nothing is written and `encode_batch` returns normally. -/
theorem encode_batch_validation (env : Env) (fsys : FileSystem) (filepath : Path)
    (tensor : Tensor) (delimiter : Path) (n c h w : Nat) (hs : tensor.sizes = [n, c, h, w]) :
    ((∃ what, (encode_batch env fsys filepath tensor delimiter).2 = .invalidArgument what) ↔
      (1 ≤ n ∧ (tensor.dtype ≠ .kUInt8 ∨ c ∉ [1, 2, 3, 4]))) ∧
    ((1 ≤ n ∧ (tensor.dtype ≠ .kUInt8 ∨ c ∉ [1, 2, 3, 4])) →
      ∃ what, check_transform_cpy (tensor.index 0) = .invalidArgument what ∧
        encode_batch env fsys filepath tensor delimiter = (fsys, .invalidArgument what)) ∧
    ((∃ t, check_transform_cpy (tensor.index 0) = .ret t) →
      ∀ i, ∃ t, check_transform_cpy (tensor.index i) = .ret t) ∧
    (n = 0 → encode_batch env fsys filepath tensor delimiter = (fsys, .ret ())) := by
  have hzero : n = 0 → encode_batch env fsys filepath tensor delimiter = (fsys, .ret ()) := by
    intro h0
    subst h0
    rw [encode_batch_loop env fsys filepath tensor delimiter 0 c h w hs]
    rfl
  refine ⟨⟨?_, ?_⟩, ?_, ?_, hzero⟩
  · rintro ⟨what, hthrow⟩
    by_contra hgood
    rcases Nat.eq_zero_or_pos n with h0 | hpos
    · rw [hzero h0] at hthrow
      cases hthrow
    · have h8 : tensor.dtype = .kUInt8 := by
        by_contra hb
        exact hgood ⟨hpos, Or.inl hb⟩
      have hc : c ∈ [1, 2, 3, 4] := by
        by_contra hb
        exact hgood ⟨hpos, Or.inr hb⟩
      rw [encode_batch_loop env fsys filepath tensor delimiter n c h w hs] at hthrow
      exact encodeBatchLoop_not_invalid env tensor delimiter (extension filepath)
        (replace_extension filepath []) n c h w h8 hs hc n 0 fsys what hthrow
  · rintro ⟨hn, hbad⟩
    obtain ⟨what, _, hb⟩ :=
      encode_batch_throw env fsys filepath tensor delimiter n c h w hs hn hbad
    exact ⟨what, by rw [hb]⟩
  · rintro ⟨hn, hbad⟩
    exact encode_batch_throw env fsys filepath tensor delimiter n c h w hs hn hbad
  · rintro ⟨t, ht⟩ i
    obtain ⟨h3, h8, h0⟩ := index_shape tensor n c h w 0 hs
    obtain ⟨i3, i8, i0⟩ := index_shape tensor n c h w i hs
    have hgood : ¬ ((tensor.index 0).dim ≠ 3 ∨ (tensor.index 0).dtype ≠ .kUInt8 ∨
        (tensor.index 0).size 0 ∉ [1, 2, 3, 4]) := by
      intro hb
      obtain ⟨what, hw⟩ := check_transform_cpy_throw (tensor.index 0) hb
      rw [hw] at ht
      cases ht
    have g8 : tensor.dtype = .kUInt8 := by
      by_contra hb
      exact hgood (Or.inr (Or.inl (by rw [h8]; exact hb)))
    have gc : c ∈ [1, 2, 3, 4] := by
      by_contra hb
      exact hgood (Or.inr (Or.inr (by rw [h0]; exact hb)))
    exact ⟨_, check_transform_cpy_ret (tensor.index i) i3 (by rw [i8]; exact g8)
      (by rw [i0]; exact gc)⟩

theorem encode_batch_validation_witness :
    ∃ what, check_transform_cpy (batch_float.index 0) = .invalidArgument what ∧
      encode_batch okEnv noFiles ['b', '.', 'p', 'n', 'g'] batch_float ['_'] =
        (noFiles, .invalidArgument what) :=
  (encode_batch_validation okEnv noFiles ['b', '.', 'p', 'n', 'g'] batch_float ['_'] 2 1 1 3
    rfl).2.1 ⟨by decide, Or.inl (by decide)⟩

end TorchPng
